import Mathlib

/-!
Shallow embedding of the goasana/asana HTTP router core (`tree.go`) and a
spec-modelled dispatch pipeline, with theorems settling the frozen claims
about pattern registration, tree matching and filter execution.

Conventions of the embedding:
* Go strings are Lean `String`s; all primitive operations used by the source
  (`strings.Trim`, `strings.Split`, `strings.SplitN`, `strings.HasSuffix`,
  `path.Join`, `path.Clean`, `regexp`) are re-implemented below on `String`
  following the documented semantics of the Go standard library.
* The per-request parameter store of `context.Context` is modelled as the
  ordered list of `SetParam` calls performed during matching (`Ctx`).
* A Go runtime panic is modelled as the `none` value of an `Option`-typed
  result; an ordinary "no match" is `some (none, ctx)`.
* Registration-time endpoints (`runObject interface{}`) are opaque and
  modelled as `Nat` identifiers.
-/

namespace Asana

/-! ## Basic string helpers (Go standard library semantics) -/

/-- The ordered sequence of `SetParam` calls made on the request context. -/
abbrev Ctx := List (String × String)

/-- `ctx.SetParam(k, v)` recorded as an append to the call sequence. -/
def setParam (ctx : Ctx) (k v : String) : Ctx := ctx ++ [(k, v)]

/-- Drop the leading `'/'` characters of a pattern (lines 295-300 of tree.go). -/
def dropSlashes (s : String) : String := String.mk (s.data.dropWhile (· = '/'))

/-- First path segment of a pattern with no leading slash: everything up to
the first `'/'` (lines 317-327 of tree.go). -/
def segOf (s : String) : String := String.mk (s.data.takeWhile (· ≠ '/'))

/-- Remainder of the pattern after `segOf`, starting at the first `'/'`. -/
def restOf (s : String) : String := String.mk (s.data.dropWhile (· ≠ '/'))

/-- `strings.HasSuffix`. -/
def strHasSuffix (s suf : String) : Bool :=
  s.data.length ≥ suf.data.length ∧
    s.data.drop (s.data.length - suf.data.length) = suf.data

/-- Remove the last `n` characters. -/
def strDropRight (s : String) (n : Nat) : String :=
  String.mk (s.data.take (s.data.length - n))

/-- `strings.Trim(s, cutset)`: remove the characters of `cutset` from both
ends of `s`. -/
def strTrimCut (cut : List Char) (s : String) : String :=
  String.mk (((s.data.dropWhile (cut.contains ·)).reverse.dropWhile
      (cut.contains ·)).reverse)

/-- `strings.TrimRight(s, cutset)`. -/
def strTrimRightCut (cut : List Char) (s : String) : String :=
  String.mk ((s.data.reverse.dropWhile (cut.contains ·)).reverse)

/-- `strings.Split(s, "/")` on character lists. -/
def splitSlashAux : List Char → List Char → List String
  | [], acc => [String.mk acc.reverse]
  | c :: cs, acc =>
    if c = '/' then String.mk acc.reverse :: splitSlashAux cs []
    else splitSlashAux cs (c :: acc)

/-- `strings.Split(s, "/")`. -/
def splitSlash (s : String) : List String := splitSlashAux s.data []

/-- Join a list of strings with `"/"` (`strings.Join(elems, "/")`). -/
def joinSlash : List String → String
  | [] => ""
  | [s] => s
  | s :: rest => s ++ "/" ++ joinSlash rest

/-- One step of `path.Clean`'s component processing: `""` and `"."` vanish,
`".."` pops unless the stack holds only `".."`s (or the path is rooted and
the stack is empty). The stack is kept reversed. -/
def cleanStep (rooted : Bool) (acc : List String) (c : String) : List String :=
  if c = "" ∨ c = "." then acc
  else if c = ".." then
    match acc with
    | [] => if rooted then [] else [".."]
    | a :: rest => if a = ".." then c :: acc else rest
  else c :: acc

/-- `path.Clean` following its documented semantics (Plan 9 cleanname). -/
def pathClean (p : String) : String :=
  if p = "" then "."
  else
    let rooted := p.data.head? = some '/'
    let comps := splitSlash p
    let out := (comps.foldl (cleanStep rooted) []).reverse
    let s := joinSlash out
    if rooted then "/" ++ s
    else if s = "" then "." else s

/-- `path.Join(elem...)`: skip leading empty elements, then `Clean` the
slash-join of the rest; all-empty gives `""`. -/
def pathJoin : List String → String
  | [] => ""
  | e :: rest => if e = "" then pathJoin rest else pathClean (joinSlash (e :: rest))

/-- `strings.SplitN(s, ".", 2)`. -/
def splitN2dot (s : String) : List String :=
  if s.data.contains '.' then
    [String.mk (s.data.takeWhile (· ≠ '.')),
     String.mk ((s.data.dropWhile (· ≠ '.')).drop 1)]
  else [s]

/-- `splitPath` (lines 460-466 of tree.go): trim `'/'` and `' '`, then split
on `'/'`; the empty string gives no segments. -/
def splitPath (key : String) : List String :=
  let key := strTrimCut ['/', ' '] key
  if key = "" then [] else splitSlash key

end Asana

namespace Asana

/-! Sanity checks for the string helpers. -/

example : dropSlashes "//ab/c" = "ab/c" := by decide
example : segOf "ab/c" = "ab" := by decide
example : restOf "ab/c" = "/c" := by decide
example : strHasSuffix "foo.json" ".json" = true := by decide
example : strHasSuffix "a" ".json" = false := by decide
example : strDropRight "foo.json" 5 = "foo" := by decide
example : strTrimCut ['/', ' '] "/admin/users/" = "admin/users" := by decide
example : splitSlash "a//b" = ["a", "", "b"] := by decide
example : pathClean "a//b/./c/.." = "a/b" := by decide
example : pathClean "/.." = "/" := by decide
example : pathClean "" = "." := by decide
example : pathJoin ["", "a", "b"] = "a/b" := by decide
example : pathJoin ["a.b", "c"] = "a.b/c" := by decide
example : splitN2dot "a.b.c" = ["a", "b.c"] := by decide
example : splitN2dot "abc" = ["abc"] := by decide
example : splitPath "/admin/users" = ["admin", "users"] := by decide
example : splitPath "/" = [] := by decide

end Asana

namespace Asana

/-! ## A small regular-expression engine

`tree.go` compiles route patterns into `regexp` sources built from literal
characters, capture groups `( )`, character classes `[ ]`, `.`, and the
postfix operators `+ * ?`, always anchored as `^...$`.  The engine below
parses exactly this fragment and performs backtracking (leftmost-first,
greedy) matching with capture groups, i.e. the submatch semantics of Go's
`regexp` package on this fragment.  Everything is structurally recursive on
an explicit fuel so that concrete matches evaluate inside the kernel. -/

/-- One item of a character class. -/
inductive ClsItem where
  | single (c : Char)
  | range (lo hi : Char)
  | wordC
  | digitC
  | spaceC
deriving DecidableEq, Repr

/-- Regular-expression abstract syntax; `grp` carries the Go group index. -/
inductive Re where
  | emp
  | lit (c : Char)
  | anyC
  | cls (neg : Bool) (items : List ClsItem)
  | grp (idx : Nat) (r : Re)
  | cat (a b : Re)
  | alt (a b : Re)
  | star (r : Re)
  | plus (r : Re)
  | opt (r : Re)
deriving DecidableEq, Repr

/-- Does a class item match a character? -/
def clsItemMatch (c : Char) : ClsItem → Bool
  | .single d => c = d
  | .range lo hi => lo.toNat ≤ c.toNat ∧ c.toNat ≤ hi.toNat
  | .wordC => c.isAlphanum ∨ c = '_'
  | .digitC => '0'.toNat ≤ c.toNat ∧ c.toNat ≤ '9'.toNat
  | .spaceC => c = ' ' ∨ c = '\t' ∨ c = '\n' ∨ c = '\r' ∨ c = '\x0b' ∨ c = '\x0c'

/-- Does a (possibly negated) class match a character? -/
def clsMatch (neg : Bool) (items : List ClsItem) (c : Char) : Bool :=
  if neg then ¬ items.any (clsItemMatch c) else items.any (clsItemMatch c)

/-- Parse the interior of a `[...]` class (after the optional `^`),
returning the items and the rest after the closing `]`. -/
def parseCls : Nat → List Char → List ClsItem → Option (List ClsItem × List Char)
  | 0, _, _ => none
  | _ + 1, [], _ => none
  | f + 1, c :: rest, acc =>
    if c = ']' then some (acc.reverse, rest)
    else if c = '\\' then
      match rest with
      | [] => none
      | d :: rest' =>
        let item := if d = 'w' then ClsItem.wordC
          else if d = 'd' then ClsItem.digitC
          else if d = 's' then ClsItem.spaceC
          else ClsItem.single d
        parseCls f rest' (item :: acc)
    else if rest.head? = some '-' ∧ rest.tail.head? ≠ some ']' ∧ rest.tail ≠ [] then
      parseCls f rest.tail.tail (ClsItem.range c (rest.tail.headD ' ') :: acc)
    else
      parseCls f rest (ClsItem.single c :: acc)

/-- One frame of the regex parser: the group index opened by this frame,
the completed alternatives (reversed) and the current concatenation
(reversed). -/
structure PFrame where
  gidx : Nat
  alts : List Re
  cur : List Re
deriving Repr

/-- Concatenation of a reversed atom list. -/
def mkCatRev (l : List Re) : Re :=
  match l.reverse with
  | [] => .emp
  | a :: rest => rest.foldl Re.cat a

/-- Alternation of the frame's alternatives with its current concatenation. -/
def closeFrame (fr : PFrame) : Re :=
  match (mkCatRev fr.cur :: fr.alts).reverse with
  | [] => .emp
  | a :: rest => rest.foldl Re.alt a

/-- Apply a postfix operator to the last atom of the current concatenation. -/
def applyPostfixOp (op : Char) (fr : PFrame) : Option PFrame :=
  match fr.cur with
  | [] => none
  | a :: rest =>
    let a' := if op = '*' then Re.star a else if op = '+' then Re.plus a else Re.opt a
    some ⟨fr.gidx, fr.alts, a' :: rest⟩

/-- Single-pass regex parser over the source characters: a stack machine
with one frame per open group.  `g` is the next capture-group index. -/
def parseRun : Nat → List Char → PFrame → List PFrame → Nat →
    Option (Re × Nat)
  | 0, _, _, _, _ => none
  | _ + 1, [], fr, stk, g =>
    match stk with
    | [] => some (closeFrame fr, g)
    | _ => none
  | f + 1, c :: rest, fr, stk, g =>
    if c = '(' then parseRun f rest ⟨g, [], []⟩ (fr :: stk) (g + 1)
    else if c = ')' then
      match stk with
      | [] => none
      | parent :: stk' =>
        parseRun f rest ⟨parent.gidx, parent.alts,
          Re.grp fr.gidx (closeFrame fr) :: parent.cur⟩ stk' g
    else if c = '|' then
      parseRun f rest ⟨fr.gidx, mkCatRev fr.cur :: fr.alts, []⟩ stk g
    else if c = '*' ∨ c = '+' ∨ c = '?' then
      match applyPostfixOp c fr with
      | none => none
      | some fr' => parseRun f rest fr' stk g
    else if c = '[' then
      let body := if rest.head? = some '^' then rest.tail else rest
      let neg := rest.head? = some '^'
      match parseCls (body.length + 1) body [] with
      | none => none
      | some (items, rest') =>
        parseRun f rest' ⟨fr.gidx, fr.alts, Re.cls neg items :: fr.cur⟩ stk g
    else if c = '\\' then
      match rest with
      | [] => none
      | d :: rest' =>
        let atom := if d = 'w' then Re.cls false [.wordC]
          else if d = 'd' then Re.cls false [.digitC]
          else if d = 's' then Re.cls false [.spaceC]
          else Re.lit d
        parseRun f rest' ⟨fr.gidx, fr.alts, atom :: fr.cur⟩ stk g
    else if c = '.' then
      parseRun f rest ⟨fr.gidx, fr.alts, Re.anyC :: fr.cur⟩ stk g
    else if c = '^' ∨ c = '$' ∨ c = ']' then none
    else parseRun f rest ⟨fr.gidx, fr.alts, Re.lit c :: fr.cur⟩ stk g

/-- Capture store: group index to captured characters. -/
abbrev Caps := List (Nat × List Char)

/-- Record (replace-or-add) a capture. -/
def setCap (caps : Caps) (i : Nat) (v : List Char) : Caps :=
  if caps.any (fun p => p.1 = i) then
    caps.map (fun p => if p.1 = i then (i, v) else p)
  else caps ++ [(i, v)]

/-- Backtracking matcher in continuation-passing style: `reM f r s caps k`
tries the ways `r` can match a prefix of `s` in Go/Perl preference order
(greedy, leftmost alternative first) and calls the continuation `k` on the
remaining suffix and captures of each, returning the first success. -/
def reM : Nat → Re → List Char → Caps →
    (List Char → Caps → Option (List Char × Caps)) → Option (List Char × Caps)
  | 0, _, _, _, _ => none
  | f + 1, r, s, caps, k =>
    match r with
    | .emp => k s caps
    | .lit c =>
      match s with
      | [] => none
      | c' :: rest => if c' = c then k rest caps else none
    | .anyC =>
      match s with
      | [] => none
      | c' :: rest => if c' = '\n' then none else k rest caps
    | .cls neg items =>
      match s with
      | [] => none
      | c' :: rest => if clsMatch neg items c' then k rest caps else none
    | .grp i r' =>
      reM f r' s caps (fun rest cp =>
        k rest (setCap cp i (s.take (s.length - rest.length))))
    | .cat a b => reM f a s caps (fun rest cp => reM f b rest cp k)
    | .alt a b =>
      match reM f a s caps k with
      | some res => some res
      | none => reM f b s caps k
    | .star r' =>
      match reM f r' s caps (fun rest cp =>
          if rest.length < s.length then reM f (.star r') rest cp k
          else k rest cp) with
      | some res => some res
      | none => k s caps
    | .plus r' =>
      reM f r' s caps (fun rest cp =>
        if rest.length < s.length then reM f (.star r') rest cp k
        else k rest cp)
    | .opt r' =>
      match reM f r' s caps k with
      | some res => some res
      | none => k s caps

/-- Size of a regex, used only to pick an adequate matching fuel. -/
def reSize : Re → Nat
  | .emp | .lit _ | .anyC | .cls _ _ => 1
  | .grp _ r => reSize r + 1
  | .cat a b | .alt a b => reSize a + reSize b + 1
  | .star r | .plus r | .opt r => reSize r + 1

/-- A parsed pattern: start anchor, end anchor, syntax tree, group count. -/
structure ReParsed where
  anchS : Bool
  anchE : Bool
  ast : Re
  nGroups : Nat
deriving DecidableEq, Repr

/-- Parse a full `regexp` source, recognising `^`/`$` anchors at the two
ends (the only positions `tree.go` ever generates them in). -/
def reParse (src : String) : Option ReParsed :=
  let d0 := src.data
  let aS : Bool := d0.head? = some '^'
  let d1 := if aS then d0.drop 1 else d0
  let aE : Bool := d1.getLast? = some '$'
  let d2 := if aE then d1.take (d1.length - 1) else d1
  match parseRun (d2.length + 1) d2 ⟨0, [], []⟩ [] 1 with
  | some (r, g) => some ⟨aS, aE, r, g - 1⟩
  | none => none

/-- First match (in preference order) of a parsed pattern inside `s`,
starting at the given offsets in leftmost order; returns the consumed slice
and the captures. -/
def reSearchFrom (p : ReParsed) (s : List Char) : List Nat → Option (List Char × Caps)
  | [] => none
  | st :: more =>
    let tail := s.drop st
    match reM ((reSize p.ast + 2) * (tail.length + 2)) p.ast tail []
        (fun rest cp =>
          if p.anchE then (if rest = [] then some (rest, cp) else none)
          else some (rest, cp)) with
    | some (rest, cp) => some (tail.take (tail.length - rest.length), cp)
    | none => reSearchFrom p s more

/-- `regexp.FindStringSubmatch` on the supported fragment: the whole match
followed by the capture groups (absent groups are `""`, as in Go). -/
def reFindSubmatch (p : ReParsed) (s : String) : Option (List String) :=
  let starts := if p.anchS then [0] else List.range (s.data.length + 1)
  (reSearchFrom p s.data starts).map (fun (whole, cp) =>
    String.mk whole ::
      (List.range p.nGroups).map (fun i =>
        String.mk (((cp.find? (fun q => q.1 = i + 1)).map Prod.snd).getD [])))

end Asana

namespace Asana

/-! Sanity checks for the regex engine. -/

example :
    (reParse "^asana([0-9]+)-([0-9]+).html$").bind
      (fun p => reFindSubmatch p "asana32-12.html") =
    some ["asana32-12.html", "32", "12"] := by decide

example :
    (reParse "^asana([0-9]+)-([0-9]+).html$").bind
      (fun p => reFindSubmatch p "asanaX-12.html") = none := by decide

example :
    (reParse "^([^.]+).(.+)$").bind (fun p => reFindSubmatch p "a.b.c") =
    some ["a.b.c", "a", "b.c"] := by decide

example :
    (reParse "^cms_(.+)_(.+).html$").bind (fun p => reFindSubmatch p "cms_x_y.html") =
    some ["cms_x_y.html", "x", "y"] := by decide

example :
    (reParse "^([\\w]+)$").bind (fun p => reFindSubmatch p "ab_9") =
    some ["ab_9", "ab_9"] := by decide

end Asana

namespace Asana

/-! ## `splitSegment` (lines 479-585 of tree.go)

The segment grammar classifier: a character-indexed state machine with
capture of parameter names, inline regex fragments `(...)`, the `:int` /
`:string` shorthands, the optional marker `?`, and `\`-escapes. -/

/-- Is a character accepted by the Go fragment's param-name regex
`[a-zA-Z0-9_]+` (applied to one character)? -/
def isParamChar (c : Char) : Bool :=
  ('a'.toNat ≤ c.toNat ∧ c.toNat ≤ 'z'.toNat) ∨
  ('A'.toNat ≤ c.toNat ∧ c.toNat ≤ 'Z'.toNat) ∨
  ('0'.toNat ≤ c.toNat ∧ c.toNat ≤ '9'.toNat) ∨ c = '_'

/-- The mutable locals of `splitSegment`'s loop. -/
structure SSt where
  paramsNum : Nat
  out : List Char
  start : Bool
  startExp : Bool
  param : List Char
  expt : List Char
  skipNum : Nat
  params : List String
deriving Repr, DecidableEq

/-- One iteration of `splitSegment`'s `for i, v := range key` loop body,
including the fall-through structure of its nested `if`s. -/
def ssIter (key : List Char) (i : Nat) (c : Char) (st : SSt) : SSt :=
  if st.skipNum > 0 then { st with skipNum := st.skipNum - 1 }
  else
    -- `if start { ... }`: may consume the char (`continue`) or fall through
    let b2 : SSt × Bool :=
      if st.start then
        if c = ':' ∧ key.length ≥ i + 4 ∧ (key.drop (i + 1)).take 3 = "int".data then
          ({ st with out := st.out ++ "([0-9]+)".data,
                     params := st.params ++ [":" ++ String.mk st.param],
                     start := false, startExp := false, skipNum := 3,
                     param := [], paramsNum := st.paramsNum + 1 }, true)
        else if c = ':' ∧ key.length ≥ i + 7 ∧
            (key.drop (i + 1)).take 6 = "string".data then
          ({ st with out := st.out ++ "([\\w]+)".data,
                     params := st.params ++ [":" ++ String.mk st.param],
                     paramsNum := st.paramsNum + 1,
                     start := false, startExp := false, skipNum := 6,
                     param := [] }, true)
        else if isParamChar c then ({ st with param := st.param ++ [c] }, true)
        else if c ≠ '(' then
          ({ st with out := st.out ++ "(.+)".data,
                     params := st.params ++ [":" ++ String.mk st.param],
                     param := [], paramsNum := st.paramsNum + 1,
                     start := false, startExp := false }, false)
        else (st, false)
      else (st, false)
    if b2.2 then b2.1
    else
      let st2 := b2.1
      -- `if startExp { ... }`
      let b3 : SSt × Bool :=
        if st2.startExp ∧ c ≠ ')' then ({ st2 with expt := st2.expt ++ [c] }, true)
        else (st2, false)
      if b3.2 then b3.1
      else
        let st3 := b3.1
        if i > 0 ∧ key.getD (i - 1) ' ' = '\\' then { st3 with out := st3.out ++ [c] }
        else if c = ':' then { st3 with param := [], start := true }
        else if c = '(' then
          { st3 with startExp := true, start := false,
                     params := if st3.param ≠ [] then
                         st3.params ++ [":" ++ String.mk st3.param]
                       else st3.params,
                     param := [],
                     paramsNum := st3.paramsNum + 1,
                     expt := ['('] }
        else if c = ')' then
          { st3 with startExp := false, expt := st3.expt ++ [')'],
                     out := st3.out ++ st3.expt ++ [')'], param := [] }
        else if c = '?' then { st3 with params := st3.params ++ [":"] }
        else { st3 with out := st3.out ++ [c] }

/-- The whole loop, one character (by index) per fuel step. -/
def ssLoop (key : List Char) : Nat → Nat → SSt → SSt
  | 0, _, st => st
  | f + 1, i, st =>
    if i < key.length then ssLoop key f (i + 1) (ssIter key i (key.getD i ' ') st)
    else st

/-- `splitSegment` (tree.go): classify one pattern segment, returning
(isWild, paramNames, regex fragment). -/
def splitSegment (key : String) : Bool × List String × String :=
  if key.data.head? = some '*' then
    if key = "*.*" then (true, [".", ":path", ":ext"], "")
    else (true, [":splat"], "")
  else if key.data.contains ':' then
    let st := ssLoop key.data (key.data.length + 1) 0 ⟨0, [], false, false, [], [], 0, []⟩
    let st := if st.param ≠ [] then
        { st with out := if st.paramsNum > 0 then st.out ++ "(.+)".data else st.out,
                  params := st.params ++ [":" ++ String.mk st.param] }
      else st
    (true, st.params, String.mk st.out)
  else (false, [], "")

end Asana

namespace Asana

/-! Sanity checks reproducing the examples documented above `splitSegment`
in tree.go. -/

set_option maxRecDepth 40000

example : splitSegment "admin" = (false, [], "") := by decide
example : splitSegment ":id" = (true, [":id"], "") := by decide
example : splitSegment "?:id" = (true, [":", ":id"], "") := by decide
example : splitSegment ":id:int" = (true, [":id"], "([0-9]+)") := by decide
example : splitSegment ":name:string" = (true, [":name"], "([\\w]+)") := by decide
example : splitSegment ":id([0-9]+)" = (true, [":id"], "([0-9]+)") := by decide
example : splitSegment ":id([0-9]+)_:name" = (true, [":id", ":name"], "([0-9]+)_(.+)") := by
  decide
example : splitSegment "cms_:id_:page.html" = (true, [":id_", ":page"], "cms_(.+)(.+).html") := by
  decide
example : splitSegment "cms_:id(.+)_:page.html" =
    (true, [":id", ":page"], "cms_(.+)_(.+).html") := by decide
example : splitSegment "*" = (true, [":splat"], "") := by decide
example : splitSegment "*.*" = (true, [".", ":path", ":ext"], "") := by decide
example : splitSegment "asana:id([0-9]+)-:page([0-9]+).html" =
    (true, [":id", ":page"], "asana([0-9]+)-([0-9]+).html") := by decide

end Asana

namespace Asana

/-! ## The pattern tree (tree.go) -/

/-- `leafInfo`: wildcard names, optional compiled regex (kept as its source
string, compiled on use by `reParse`), and the registered endpoint
(`runObject`, modelled as an opaque `Nat`). -/
structure LeafInfo where
  wildcards : List String
  regexps : Option String
  runObject : Nat
deriving DecidableEq, Repr

/-- `Tree`: prefix for static routes, literal children, at most one
wildcard child, and the leaves terminating here. -/
inductive Tree where
  | node (pfx : String) (fixRouters : List Tree) (wildCard : Option Tree)
      (leaves : List LeafInfo)

/-- The `prefix` field (renamed: `pfx`). -/
def Tree.pfx : Tree → String
  | .node p _ _ _ => p

def Tree.fixRouters : Tree → List Tree
  | .node _ f _ _ => f

def Tree.wildCard : Tree → Option Tree
  | .node _ _ w _ => w

def Tree.leaves : Tree → List LeafInfo
  | .node _ _ _ l => l

/-- `NewTree()`. -/
def NewTree : Tree := .node "" [] none []

/-- A fresh node with its prefix set (`subTree := NewTree(); subTree.prefix = seg`). -/
def emptyNode (s : String) : Tree := .node s [] none []

def Tree.setPfx : Tree → String → Tree
  | .node _ f w l, p => .node p f w l

def Tree.setFix : Tree → List Tree → Tree
  | .node p _ w l, f => .node p f w l

def Tree.setWildCard : Tree → Tree → Tree
  | .node p f _ l, w => .node p f (some w) l

def Tree.pushLeaf : Tree → LeafInfo → Tree
  | .node p f w l, leaf => .node p f w (l ++ [leaf])

/-- The part of `addSeg` (lines 224-282 of tree.go) that runs after the
optional-parameter continuation has been inserted: wildcard escalation of
literals below a `*`, the `/user/:id/*` rule, and the wildcard / literal
insertion of the full pattern.  `rec t' w' r'` is the recursive insertion
of the remaining segments into `t'` with wildcards `w'` and regex context
`r'`; `isWild0`, `params1` (already stripped of the optional marker) and
`regexpStr0` come from `splitSegment`. -/
def addSegRest (rec : Tree → List String → String → Tree) (t : Tree) (seg : String)
    (wildcards : List String) (reg : String) (isWild0 : Bool)
    (params1 : List String) (regexpStr0 : String) : Tree :=
  let isWild1 := if ¬isWild0 ∧ wildcards.contains ":splat" then true else isWild0
  let regexpStr1 := if ¬isWild0 ∧ wildcards.contains ":splat" then seg else regexpStr0
  let regexpStr2 := if seg = "*" ∧ wildcards ≠ [] ∧ reg = "" then "(.+)" else regexpStr1
  if isWild1 then
    let wcOld := t.wildCard.getD NewTree
    let pr : List String × String :=
      if regexpStr2 ≠ "" then
        if reg = "" then
          (params1,
           (wildcards.foldl (fun rr w =>
              rr ++ (if w = ":splat" then "(.+)/" else "([^/]+)/")) "") ++ regexpStr2)
        else (params1, "/" ++ regexpStr2)
      else if reg ≠ "" then
        if seg = "*.*" then (params1.tail, "/([^.]+).(.+)")
        else (params1, params1.foldl (fun acc _ => "/([^/]+)" ++ acc) regexpStr2)
      else
        if seg = "*.*" then (params1.tail, regexpStr2) else (params1, regexpStr2)
    t.setWildCard (rec wcOld (wildcards ++ pr.1) (reg ++ pr.2))
  else
    match t.fixRouters.findIdx? (fun s => s.pfx = seg) with
    | some i =>
      t.setFix (t.fixRouters.set i
        (rec ((t.fixRouters.get? i).getD NewTree) wildcards reg))
    | none =>
      t.setFix (t.fixRouters ++ [rec (emptyNode seg) wildcards reg])

/-- `addSeg` (lines 209-283 of tree.go), with Go's in-place mutation turned
into value updates.  The order of operations mirrors the source: a leading
`?` in the parameter list first registers the continuation without this
segment (lines 220-223), then the insertion of the full pattern proceeds on
the updated tree. -/
def addSeg (t : Tree) (segments : List String) (route : Nat)
    (wildcards : List String) (reg : String) : Tree :=
  match segments with
  | [] =>
    if reg ≠ "" then t.pushLeaf ⟨wildcards, some ("^" ++ reg ++ "$"), route⟩
    else t.pushLeaf ⟨wildcards, none, route⟩
  | seg :: rest =>
    let sp := splitSegment seg
    let opt := sp.2.1.head? = some ":"
    addSegRest (fun t' w' r' => addSeg t' rest route w' r')
      (if opt then addSeg t rest route wildcards reg else t) seg
      wildcards reg sp.1 (if opt then sp.2.1.tail else sp.2.1) sp.2.2
/-- `AddRouter` (lines 203-205). -/
def AddRouter (t : Tree) (pattern : String) (route : Nat) : Tree :=
  addSeg t (splitPath pattern) route [] ""

end Asana

namespace Asana

/-! ## Matching (lines 286-454 of tree.go) -/

/-- Result of a match: `none` models a Go runtime panic; `some (r, ctx)`
is the returned `runObject` (with `none` the no-match sentinel `nil`)
together with the context after its `SetParam` calls. -/
abbrev MRes := Option (Option Nat × Ctx)

/-- `leafInfo.match` (lines 394-454): success writes the bindings into the
context; failure leaves the context untouched (every `SetParam` in the
source sits on a path that returns `true`); an out-of-range index in Go is
a panic (`none`). -/
def leafMatch (leaf : LeafInfo) (treePattern : String)
    (wildcardValues : List String) (ctx : Ctx) : Option (Bool × Ctx) :=
  match leaf.regexps with
  | none =>
    if wildcardValues = [] ∧ leaf.wildcards = [] then some (true, ctx)
    else if leaf.wildcards = [":splat"] then
      some (true, setParam ctx ":splat" treePattern)
    else if leaf.wildcards.length ≥ 2 ∧
        leaf.wildcards.getD (leaf.wildcards.length - 2) "" = ":path" ∧
        leaf.wildcards.getD (leaf.wildcards.length - 1) "" = ":ext" then
      if leaf.wildcards.length = 2 then
        match wildcardValues.getLast? with
        | none => none
        | some lastOne =>
          let strs := splitN2dot lastOne
          let ctx1 := if strs.length = 2 then setParam ctx ":ext" (strs.getD 1 "") else ctx
          some (true, setParam ctx1 ":path"
            (pathJoin [pathJoin wildcardValues.dropLast, strs.getD 0 ""]))
      else if wildcardValues.length < 2 then some (false, ctx)
      else if wildcardValues.length < leaf.wildcards.length - 2 then none
      else
        let idx := leaf.wildcards.length - 2
        let ctx1 := (List.range idx).foldl
          (fun c j => setParam c (leaf.wildcards.getD j "") (wildcardValues.getD j "")) ctx
        match wildcardValues.getLast? with
        | none => none
        | some lastOne =>
          let strs := splitN2dot lastOne
          let ctx2 := if strs.length = 2 then setParam ctx1 ":ext" (strs.getD 1 "") else ctx1
          if idx > wildcardValues.length - 1 then
            some (true, setParam ctx2 ":path" "")
          else
            some (true, setParam ctx2 ":path"
              (pathJoin [pathJoin ((wildcardValues.drop idx).dropLast), strs.getD 0 ""]))
    else if leaf.wildcards.length ≠ wildcardValues.length then some (false, ctx)
    else
      some (true, (List.zip leaf.wildcards wildcardValues).foldl
        (fun c p => setParam c p.1 p.2) ctx)
  | some src =>
    match reParse src with
    | none => none
    | some p =>
      match reFindSubmatch p (pathJoin wildcardValues) with
      | none => some (false, ctx)
      | some subs =>
        let ms := subs.tail
        some (true, (List.range ms.length).foldl
          (fun c i => if i < leaf.wildcards.length then
              setParam c (leaf.wildcards.getD i "") (ms.getD i "") else c) ctx)

/-- First leaf (in registration order) whose `leafMatch` succeeds
(lines 303-307 and 375-379), threading the context. -/
def leafFirst (leaves : List LeafInfo) (treePattern : String)
    (wildcardValues : List String) (ctx : Ctx) : MRes :=
  match leaves with
  | [] => some (none, ctx)
  | l :: ls =>
    match leafMatch l treePattern wildcardValues ctx with
    | none => none
    | some (true, c) => some (some l.runObject, c)
    | some (false, c) => leafFirst ls treePattern wildcardValues c

/-- The literal-children loop (lines 328-340): recurse into every child
whose prefix equals the segment; the first success `break`s. -/
def fixFirst (rec : Tree → Ctx → MRes) (l : List Tree) (seg : String)
    (ctx : Ctx) : MRes :=
  match l with
  | [] => some (none, ctx)
  | s :: ss =>
    if s.pfx = seg then
      match rec s ctx with
      | none => none
      | some (some r, c) => some (some r, c)
      | some (none, c) => fixFirst rec ss seg c
    else fixFirst rec ss seg ctx

/-- Inner loop of the suffix-extension retry (lines 345-352).  Note the
source has no `break`: every child with the stripped prefix is tried and
`runObject` is overwritten each time; after each success `:ext` is bound. -/
def extFixLoop (rec : Tree → Ctx → MRes) (l : List Tree) (target extNoDot : String)
    (cur : Option Nat × Ctx) : MRes :=
  match l with
  | [] => some cur
  | s :: ss =>
    if s.pfx = target then
      match rec s cur.2 with
      | none => none
      | some (some r, c) =>
        extFixLoop rec ss target extNoDot (some r, setParam c ":ext" extNoDot)
      | some (none, c) => extFixLoop rec ss target extNoDot (none, c)
    else extFixLoop rec ss target extNoDot cur

/-- `allowSuffixExt` (lines 26-28). -/
def allowSuffixExt : List String := [".json", ".xml", ".html"]

/-- Outer loop of the suffix-extension retry (lines 343-354). -/
def extLoop (rec : Tree → Ctx → MRes) (exts : List String) (fix : List Tree)
    (seg : String) (cur : Option Nat × Ctx) : MRes :=
  match exts with
  | [] => some cur
  | e :: es =>
    if strHasSuffix seg e then
      match extFixLoop rec fix (strDropRight seg e.data.length)
          (String.mk (e.data.drop 1)) cur with
      | none => none
      | some cur' => extLoop rec es fix seg cur'
    else extLoop rec es fix seg cur

/-- The flattening of the remaining pattern into wildcard values
(lines 362-374), including its treatment of repeated slashes. -/
def splitRemainingAux (p : List Char) : Nat → Nat → Nat → List String → List String
  | 0, _, _, acc => acc
  | f + 1, i, start, acc =>
    if i < p.length then
      if p.getD i ' ' = '/' then
        let acc' := if i ≠ 0 ∧ start < p.length then
            acc ++ [String.mk ((p.drop start).take (i - start))]
          else acc
        splitRemainingAux p f (i + 1) (i + 1) acc'
      else splitRemainingAux p f (i + 1) start acc
    else if start > 0 then acc ++ [String.mk (p.drop start)] else acc

def splitRemaining (pattern : String) : List String :=
  splitRemainingAux pattern.data (pattern.data.length + 1) 0 0 []

/-- The new value of the local variable `treePattern` after the literal
loop (it is reassigned inside the loop whenever some child's prefix equals
the segment, and that value is what the later phases observe). -/
def tpAfterFix (fix : List Tree) (seg rest treePattern : String) : String :=
  if fix.any (fun s => s.pfx = seg) then
    (if rest ≠ "" ∧ rest.data.head? = some '/' then String.mk (rest.data.drop 1) else rest)
  else treePattern

/-- `Tree.match` (lines 294-382), fuel-indexed (the fuel only bounds the
depth of the descent; `Match` supplies an adequate bound). -/
def treeMatchF : Nat → Tree → String → String → List String → Ctx → MRes
  | 0, _, _, _, _, _ => none
  | f + 1, t, treePattern, pattern0, wildcardValues, ctx =>
    let pattern := dropSlashes pattern0
    if pattern = "" then
      match leafFirst t.leaves treePattern wildcardValues ctx with
      | none => none
      | some (some r, c) => some (some r, c)
      | some (none, c) =>
        match t.wildCard with
        | none => some (none, c)
        | some w => leafFirst w.leaves treePattern wildcardValues c
    else
      let seg := segOf pattern
      let rest := restOf pattern
      let tp1 := tpAfterFix t.fixRouters seg rest treePattern
      match fixFirst (fun s c => treeMatchF f s tp1 rest wildcardValues c)
          t.fixRouters seg ctx with
      | none => none
      | some (some r, c) => some (some r, c)
      | some (none, c1) =>
        let afterExt : MRes :=
          if t.fixRouters.isEmpty = false then
            extLoop (fun s c => treeMatchF f s tp1 rest wildcardValues c)
              allowSuffixExt t.fixRouters seg (none, c1)
          else some (none, c1)
        match afterExt with
        | none => none
        | some (some r, c2) => some (some r, c2)
        | some (none, c2) =>
          let afterWild : MRes :=
            match t.wildCard with
            | some w => treeMatchF f w tp1 rest (wildcardValues ++ [seg]) c2
            | none => some (none, c2)
          match afterWild with
          | none => none
          | some (some r, c3) => some (some r, c3)
          | some (none, c3) =>
            if t.leaves ≠ [] then
              leafFirst t.leaves tp1 ((wildcardValues ++ [seg]) ++ splitRemaining rest) c3
            else some (none, c3)

/-- `Tree.Match` (lines 286-292): reject patterns that are empty or do not
start with `/`; otherwise match with `treePattern = pattern[1:]`.  Every
recursive `treeMatchF` call consumes one nonempty segment of the pattern,
so `pattern.length + 1` units of fuel always suffice (proved below by the
fuel-irrelevance lemma). -/
def Match (t : Tree) (pattern : String) (ctx : Ctx) : MRes :=
  if pattern.data = [] ∨ pattern.data.head? ≠ some '/' then some (none, ctx)
  else treeMatchF (pattern.data.length + 1) t (String.mk (pattern.data.drop 1))
    pattern [] ctx

end Asana

namespace Asana

/-! ## Grafting a subtree: `AddTree` (lines 50-200 of tree.go)

`filterTreeWithPrefix` recurses over a whole subtree, so the embedding
gives it explicit fuel (one unit per tree level); `treeDeep f t` decides
that `f` is an adequate bound.  Go's version never exhausts (trees are
finite); on exhaustion the embedding returns the input unchanged, and all
theorems about these functions assume adequacy. -/

/-- Is every path in `t` shorter than `f` levels? -/
def treeDeep : Nat → Tree → Bool
  | 0, _ => false
  | f + 1, .node _ fix wc _ =>
    fix.all (fun u => treeDeep f u) &&
      (match wc with
       | some u => treeDeep f u
       | none => true)

/-- The per-leaf rewriting loop of `filterTreeWithPrefix` (lines 170-199).
The local variable `reg` is mutated inside the loop and the mutation
persists across leaves, so the fold carries it. -/
def filterLeafFold (wildcards : List String) :
    List LeafInfo → String → List LeafInfo × String
  | [], reg => ([], reg)
  | l :: ls, reg =>
    let lr : LeafInfo × String :=
      if reg ≠ "" then
        match l.regexps with
        | some src =>
          (⟨wildcards ++ l.wildcards,
            some ("^" ++ reg ++ "/" ++ strTrimCut ['^', '$'] src ++ "$"),
            l.runObject⟩, reg)
        | none =>
          let reg2 := l.wildcards.foldl
            (fun r w => r ++ (if w = ":splat" then "/(.+)" else "/([^/]+)")) reg
          (⟨wildcards ++ l.wildcards, some ("^" ++ reg2 ++ "$"), l.runObject⟩, reg2)
      else
        match l.regexps with
        | some src =>
          let reg2 := wildcards.foldl
            (fun r w => (if w = ":splat" then "(.+)/" else "([^/]+)/") ++ r) reg
          (⟨wildcards ++ l.wildcards,
            some ("^" ++ reg2 ++ strTrimCut ['^', '$'] src ++ "$"), l.runObject⟩, reg2)
        | none => (⟨wildcards ++ l.wildcards, none, l.runObject⟩, reg)
    let rec' := filterLeafFold wildcards ls lr.2
    (lr.1 :: rec'.1, rec'.2)

/-- `filterTreeWithPrefix` (lines 163-200): prepend accumulated wildcards
and regex context to every leaf of the subtree. -/
def filterTreeWithPfxF : Nat → Tree → List String → String → Tree
  | 0, t, _, _ => t
  | f + 1, .node p fix wc lv, wildcards, reg =>
    let fix' := fix.map (fun v => filterTreeWithPfxF f v wildcards reg)
    let wc' := match wc with
      | some u => some (filterTreeWithPfxF f u wildcards reg)
      | none => none
    .node p fix' wc' (filterLeafFold wildcards lv reg).1

/-- `addTree` (lines 56-161).  `none` models Go's
`panic("prefix should has path")`.  Go's optional-parameter branch aliases
the grafted `tree` object (it is filtered in place and then grafted again);
the source's contract — "prefix should has no params" (line 51) — keeps
that branch dead, and with value semantics the embedding grafts copies. -/
def addTreeGo (fuel : Nat) (t : Tree) (segments : List String) (tree : Tree)
    (wildcards : List String) (reg : String) : Option Tree :=
  match segments with
  | [] => none
  | seg :: rest =>
    let sp := splitSegment seg
    let isWild0 := sp.1
    let params0 := sp.2.1
    let regexpStr0 := sp.2.2
    let opt := params0.head? = some ":"
    let t1opt : Option Tree :=
      if opt ∧ rest ≠ [] then
        addTreeGo fuel t rest tree (wildcards ++ params0.tail) reg
      else some t
    match t1opt with
    | none => none
    | some t1 =>
      let tree1 := if opt ∧ rest = [] then filterTreeWithPfxF fuel tree wildcards reg
        else tree
      let params1 := if opt then params0.tail else params0
      let isWild1 := if ¬isWild0 ∧ wildcards.contains ":splat" then true else isWild0
      let regexpStr1 := if ¬isWild0 ∧ wildcards.contains ":splat" then seg
        else regexpStr0
      let regexpStr2 := if seg = "*" ∧ wildcards ≠ [] ∧ reg = "" then "(.+)"
        else regexpStr1
      match rest with
      | [] =>
        if isWild1 then
          let pr : List String × String :=
            if regexpStr2 ≠ "" then
              if reg = "" then
                (params1,
                 (wildcards.foldl (fun rr w =>
                    rr ++ (if w = ":splat" then "(.+)/" else "([^/]+)/")) "") ++
                   regexpStr2)
              else (params1, "/" ++ regexpStr2)
            else if reg ≠ "" then
              if seg = "*.*" then (params1, "([^.]+).(.+)")
              else
                (params1, params1.foldl (fun acc w =>
                   if w = "." ∨ w = ":" then acc else "([^/]+)/" ++ acc) regexpStr2)
            else (params1, regexpStr2)
          let reg' := strTrimCut ['/'] (reg ++ "/" ++ pr.2)
          some (t1.setWildCard (filterTreeWithPfxF fuel tree1 (wildcards ++ pr.1) reg'))
        else
          let reg' := strTrimCut ['/'] (reg ++ "/" ++ regexpStr2)
          some (t1.setFix (t1.fixRouters ++
            [(filterTreeWithPfxF fuel tree1 (wildcards ++ params1) reg').setPfx seg]))
      | _ :: _ =>
        if isWild1 then
          let wcOld := t1.wildCard.getD NewTree
          let pr : List String × String :=
            if regexpStr2 ≠ "" then
              if reg = "" then
                (params1,
                 (wildcards.foldl (fun rr w =>
                    rr ++ (if w = ":splat" then "(.+)/" else "([^/]+)/")) "") ++
                   regexpStr2)
              else (params1, "/" ++ regexpStr2)
            else if reg ≠ "" then
              if seg = "*.*" then (params1.tail, "([^.]+).(.+)")
              else (params1, params1.foldl (fun acc _ => "([^/]+)/" ++ acc) regexpStr2)
            else
              if seg = "*.*" then (params1.tail, regexpStr2) else (params1, regexpStr2)
          let reg' := strTrimRightCut ['/'] (strTrimRightCut ['/'] reg ++ "/" ++ pr.2)
          match addTreeGo fuel wcOld rest tree1 (wildcards ++ pr.1) reg' with
          | none => none
          | some wc' => some (t1.setWildCard wc')
        else
          match addTreeGo fuel (emptyNode seg) rest tree1 (wildcards ++ params1) reg with
          | none => none
          | some chain => some (t1.setFix (t1.fixRouters ++ [chain]))

/-- `AddTree` (lines 52-54); the fuel only feeds the subtree traversals. -/
def AddTree (fuel : Nat) (t : Tree) (pfxPath : String) (tree : Tree) : Option Tree :=
  addTreeGo fuel t (splitPath pfxPath) tree [] ""

end Asana

namespace Asana

/-! ## Dispatch pipeline

Modelled from the spec: the dispatch pipeline (`ControllerRegister`,
`ServeHTTP`, `execFilter` and the stage constants) is not part of the
sources under `src/`; only its tests are.  The model below follows §4.3 of
the spec: fixed stage order, filters run in registration order within a
stage, and after each filter whose `returnOnOutput` flag is set the whole
pipeline aborts if the context shows a started response. -/

/-- Modelled from the spec: the five fixed pipeline stages (§4.3). -/
inductive Stage where
  | beforeStatic
  | beforeRouter
  | beforeExec
  | afterExec
  | finishRouter
deriving DecidableEq, Repr

/-- Modelled from the spec: one registered filter.  `writes` abstracts the
filter body's effect on the response (whether it starts output);
`matchesPath` is the outcome of its own pattern tree on the request path. -/
structure FilterEntry where
  stage : Stage
  fid : Nat
  writes : Bool
  returnOnOutput : Bool
  matchesPath : Bool
deriving DecidableEq, Repr

/-- Observable events of one request's pipeline execution. -/
inductive Ev where
  | filt (fid : Nat)
  | handler
deriving DecidableEq, Repr

/-- Modelled from the spec: the per-request view the pipeline keeps —
whether a response has been started, and the trace of what ran. -/
structure PCtx where
  started : Bool
  trace : List Ev
deriving DecidableEq, Repr

/-- Run one filter: record the event and let the body write output. -/
def runFilter (f : FilterEntry) (c : PCtx) : PCtx :=
  ⟨c.started || f.writes, c.trace ++ [.filt f.fid]⟩

/-- Modelled from the spec: run the filters of one stage in registration
order; after each executed filter, abort the pipeline (`true`) if its
`returnOnOutput` is set and the response has been started (§4.3). -/
def runStage (fs : List FilterEntry) (st : Stage) (c : PCtx) : PCtx × Bool :=
  match fs with
  | [] => (c, false)
  | f :: rest =>
    if f.stage = st ∧ f.matchesPath then
      let c' := runFilter f c
      if f.returnOnOutput ∧ c'.started then (c', true)
      else runStage rest st c'
    else runStage rest st c

/-- Modelled from the spec: the whole pipeline for one request (§4.3):
`BeforeStatic → BeforeRouter → RouteMatch → BeforeExec → Invoke →
AfterExec → FinishRouter`, with the dominant early-exit rule, a 404 stop
when no route matches, and the handler recorded in the trace. -/
def dispatch (fs : List FilterEntry) (routeMatches handlerWrites : Bool) : PCtx :=
  let c0 : PCtx := ⟨false, []⟩
  let s1 := runStage fs .beforeStatic c0
  if s1.2 then s1.1
  else
    let s2 := runStage fs .beforeRouter s1.1
    if s2.2 then s2.1
    else if ¬routeMatches then s2.1
    else
      let s3 := runStage fs .beforeExec s2.1
      if s3.2 then s3.1
      else
        let inv : PCtx := ⟨s3.1.started || handlerWrites, s3.1.trace ++ [.handler]⟩
        let s4 := runStage fs .afterExec inv
        if s4.2 then s4.1
        else (runStage fs .finishRouter s4.1).1

end Asana

namespace Asana

/-! ## Auxiliary predicates used by the theorems -/

/-- `t` with its wildcard child removed (used to state that a phase of the
matcher never consults the wildcard child). -/
def Tree.dropWild : Tree → Tree
  | .node p f _ l => .node p f none l

/-- A purely literal segment: nonempty, no `/`, no `:`, not starting with
`*` — `splitSegment` classifies it as non-wild. -/
def litSeg (s : String) : Bool :=
  s ≠ "" ∧ s.data.contains '/' = false ∧ s.data.contains ':' = false ∧
    s.data.head? ≠ some '*'

/-- Pairwise-distinct strings. -/
def nodupStr : List String → Bool
  | [] => true
  | s :: ss => s ∉ ss ∧ nodupStr ss

/-- Within depth `fuel`: at every node the literal children have pairwise
distinct prefixes (always true of trees built by `AddRouter` alone, which
reuses an existing child with the same prefix). -/
def distinctFix : Nat → Tree → Bool
  | 0, _ => false
  | f + 1, .node _ fix wc _ =>
    nodupStr (fix.map Tree.pfx) && fix.all (fun u => distinctFix f u) &&
      (match wc with
       | some u => distinctFix f u
       | none => true)

/-- Within depth `fuel`: every leaf regex source is of the shape
`^body$` with a `Trim`-stable body, i.e. recompiling
`"^" ++ Trim(src, "^$") ++ "$"` reproduces the source exactly (true of all
sources `addSeg` generates). -/
def wfReTree : Nat → Tree → Bool
  | 0, _ => false
  | f + 1, .node _ fix wc lv =>
    lv.all (fun l =>
      match l.regexps with
      | some src => "^" ++ strTrimCut ['^', '$'] src ++ "$" = src
      | none => true) &&
    fix.all (fun u => wfReTree f u) &&
      (match wc with
       | some u => wfReTree f u
       | none => true)

/-- Modelled from the spec: the post-dot remainder when splitting a string
on its LAST `'.'` (the claim's asserted value of `:ext`). -/
def lastDotExt (s : String) : String :=
  String.mk ((s.data.reverse.takeWhile (· ≠ '.')).reverse)

/-- `/`-joined URL path of a list of segments. -/
def pathOfSegs (segs : List String) : String := "/" ++ joinSlash segs

/-- At most one entry of the list is a suffix of `seg`. -/
def atMostOneSuffix (seg : String) : List String → Bool
  | [] => true
  | e :: es =>
    if strHasSuffix seg e then es.all (fun x => !(strHasSuffix seg x))
    else atMostOneSuffix seg es

/-- The tree that registering the pattern
`"/" ++ joinSlash (ss ++ ["?:" ++ name])` (a literal chain followed by one
optional plain parameter) into a fresh tree produces: a single spine of
literal nodes; the last node carries both the continuation leaf (no
wildcards) and a wildcard child whose leaf binds `":" ++ name` - both with
the same `runObject`. -/
def chainNode (p name : String) (route : Nat) : List String → Tree
  | [] => Tree.node p []
      (some (Tree.node "" [] none [⟨[":" ++ name], none, route⟩]))
      [⟨[], none, route⟩]
  | s :: ss => Tree.node p [chainNode s name route ss] none []

/-- The tree that grafting a subtree `S1` (already rewritten by
`filterTreeWithPrefix`) under a literal chain produces: a spine of literal
nodes whose last child is the subtree itself with its prefix replaced by
the final segment. -/
def graftSpine (S1 : Tree) : String → List String → Tree
  | q, [] => S1.setPfx q
  | q, q2 :: rest => Tree.node q [graftSpine S1 q2 rest] none []

/-- Good path segment for `splitPath` round-tripping: nonempty, no slash,
no space. -/
def goodSeg (s : String) : Prop :=
  s.data ≠ [] ∧ s.data.contains '/' = false ∧ s.data.contains ' ' = false

end Asana

namespace Asana

set_option maxRecDepth 100000

/-! ## Pipeline lemmas and claim C8 -/

/-- A stage containing a matching, writing filter with `returnOnOutput`
always aborts. -/
theorem runStage_abort (fs : List FilterEntry) (st : Stage) (c : PCtx)
    (g : FilterEntry) (hg : g ∈ fs) (hst : g.stage = st)
    (hm : g.matchesPath = true) (hw : g.writes = true)
    (hr : g.returnOnOutput = true) : (runStage fs st c).2 = true := by
  induction fs generalizing c with
  | nil => cases hg
  | cons f rest ih =>
    rcases List.mem_cons.mp hg with hgf | hgrest
    · subst hgf
      simp only [runStage, hst, hm, and_self, if_true]
      have : (runFilter g c).started = true := by
        simp [runFilter, hw]
      simp [hr, this]
    · simp only [runStage]
      by_cases hc : f.stage = st ∧ f.matchesPath = true
      · simp only [hc, and_self, if_true]
        by_cases habort : f.returnOnOutput = true ∧ (runFilter f c).started = true
        · simp [habort]
        · rw [if_neg (by simpa using habort)]
          exact ih _ hgrest
      · rw [if_neg (by simpa using hc)]
        exact ih _ hgrest

/-- Stages never add the handler event. -/
theorem runStage_no_handler (fs : List FilterEntry) (st : Stage) (c : PCtx)
    (h : Ev.handler ∉ c.trace) : Ev.handler ∉ (runStage fs st c).1.trace := by
  induction fs generalizing c with
  | nil => exact h
  | cons f rest ih =>
    simp only [runStage]
    by_cases hc : f.stage = st ∧ f.matchesPath = true
    · simp only [hc, and_self, if_true]
      have h' : Ev.handler ∉ (runFilter f c).trace := by
        simp only [runFilter, List.mem_append, List.mem_singleton]
        rintro (hin | hin)
        · exact h hin
        · cases hin
      by_cases habort : f.returnOnOutput = true ∧ (runFilter f c).started = true
      · simpa [habort] using h'
      · rw [if_neg (by simpa using habort)]
        exact ih _ h'
    · rw [if_neg (by simpa using hc)]
      exact ih _ h

/-- C8: in the dispatch pipeline, a `BeforeRouter` filter with the default
`returnOnOutput = true` that writes a response prevents the route handler
from ever being invoked; and two `FinishRouter` filters both registered
with `returnOnOutput = false` both run, in registration order, after the
handler. -/
theorem c8_filter_pipeline :
    (∀ (fs : List FilterEntry) (rm hw : Bool) (g : FilterEntry),
      g ∈ fs → g.stage = .beforeRouter → g.matchesPath = true →
      g.writes = true → g.returnOnOutput = true →
      Ev.handler ∉ (dispatch fs rm hw).trace) ∧
    (∀ (g1 g2 : FilterEntry) (hw : Bool),
      g1.stage = .finishRouter → g2.stage = .finishRouter →
      g1.matchesPath = true → g2.matchesPath = true →
      g1.returnOnOutput = false → g2.returnOnOutput = false →
      (dispatch [g1, g2] true hw).trace = [Ev.handler, .filt g1.fid, .filt g2.fid]) := by
  constructor
  · intro fs rm hw g hg hst hm hw' hr
    simp only [dispatch]
    by_cases h1 : (runStage fs .beforeStatic ⟨false, []⟩).2 = true
    · simp only [h1, if_true]
      exact runStage_no_handler _ _ _ (by simp)
    · rw [if_neg (by simpa using h1)]
      have habort := runStage_abort fs .beforeRouter
        (runStage fs .beforeStatic ⟨false, []⟩).1 g hg hst hm hw' hr
      simp only [habort, if_true]
      exact runStage_no_handler _ _ _ (runStage_no_handler _ _ _ (by simp))
  · intro g1 g2 hw h1 h2 m1 m2 r1 r2
    simp [dispatch, runStage, runFilter, h1, h2, m1, m2, r1, r2]

/-- Witness for C8 at a concrete filter configuration. -/
theorem c8_filter_pipeline_witness :
    Ev.handler ∉ (dispatch [⟨.beforeRouter, 1, true, true, true⟩] true true).trace ∧
    (dispatch [⟨.finishRouter, 5, false, false, true⟩,
               ⟨.finishRouter, 6, true, false, true⟩] true true).trace =
      [Ev.handler, .filt 5, .filt 6] := by
  exact ⟨c8_filter_pipeline.1 [⟨.beforeRouter, 1, true, true, true⟩] true true
           ⟨.beforeRouter, 1, true, true, true⟩ (by simp) rfl rfl rfl rfl,
         c8_filter_pipeline.2 ⟨.finishRouter, 5, false, false, true⟩
           ⟨.finishRouter, 6, true, false, true⟩ true rfl rfl rfl rfl rfl rfl⟩

end Asana

namespace Asana

set_option maxRecDepth 200000

/-! ## Claims C2, C3, C4 -/

/-- C2 counterexample: with `/login/list/x` and `/login/*` both registered,
`Match("/login/list/y")` succeeds through the splat leaf but binds `:splat`
to `"y"`, not to the entire remaining raw path `"list/y"` — the matcher's
`treePattern` was advanced past `"list"` by the failed literal sibling. -/
theorem c2_counterexample :
    Match (AddRouter (AddRouter NewTree "/login/list/x" 1) "/login/*" 9)
        "/login/list/y" [] = some (some 9, [(":splat", "y")]) ∧
    ("y" : String) ≠ "list/y" := ⟨by decide, by decide⟩

/-- C2 (amended): a leaf with no regex and wildcards exactly `[":splat"]`
always succeeds and binds `:splat` to the `treePattern` handed to it — the
remaining raw path as tracked by `Match`, slashes preserved (equal to the
entire remaining path whenever no literal child of the wildcard's node had
a prefix equal to the consumed segment); in particular `/login/*` matched
against `/login/2009/11/access` binds `:splat = "2009/11/access"`. -/
theorem c2_splat_binding :
    (∀ (leaf : LeafInfo) (tp : String) (wv : List String) (ctx : Ctx),
      leaf.regexps = none → leaf.wildcards = [":splat"] →
      leafMatch leaf tp wv ctx = some (true, setParam ctx ":splat" tp)) ∧
    Match (AddRouter NewTree "/login/*" 7) "/login/2009/11/access" [] =
      some (some 7, [(":splat", "2009/11/access")]) := by
  refine ⟨?_, by decide⟩
  intro leaf tp wv ctx hre hwc
  simp [leafMatch, hre, hwc]

/-- Witness for the amended C2 at a concrete leaf. -/
theorem c2_splat_binding_witness :
    leafMatch ⟨[":splat"], none, 7⟩ "a/b/c" ["a", "b", "c"] [] =
      some (true, [(":splat", "a/b/c")]) :=
  c2_splat_binding.1 ⟨[":splat"], none, 7⟩ "a/b/c" ["a", "b", "c"] [] rfl rfl

/-- C3: the pattern `/asana:id([0-9]+)-:page([0-9]+).html` accepts
`/asana32-12.html` binding `:id = 32`, `:page = 12`, rejects
`/asanaX-12.html` with the `nil` sentinel (not an error); and in general a
leaf carrying a regex only succeeds when the `/`-joined candidate values
satisfy the full-string regex. -/
theorem c3_regex_leaf :
    ((Match (AddRouter NewTree "/asana:id([0-9]+)-:page([0-9]+).html" 3)
        "/asana32-12.html" [] = some (some 3, [(":id", "32"), (":page", "12")])) ∧
     (Match (AddRouter NewTree "/asana:id([0-9]+)-:page([0-9]+).html" 3)
        "/asanaX-12.html" [] = some (none, []))) ∧
    ∀ (leaf : LeafInfo) (src tp : String) (wv : List String) (ctx c' : Ctx),
      leaf.regexps = some src →
      leafMatch leaf tp wv ctx = some (true, c') →
      ∃ p, reParse src = some p ∧ (reFindSubmatch p (pathJoin wv)).isSome = true := by
  refine ⟨⟨by decide, by decide⟩, ?_⟩
  intro leaf src tp wv ctx c' hsrc h
  cases hp : reParse src with
  | none => simp [leafMatch, hsrc, hp] at h
  | some p =>
    simp only [leafMatch, hsrc, hp] at h
    refine ⟨p, rfl, ?_⟩
    split at h
    · simp at h
    · rename_i ms heq
      simp [heq]

/-- Witness for C3's general conjunct at a concrete regex leaf. -/
theorem c3_regex_leaf_witness :
    ∃ p, reParse "^([0-9]+)$" = some p ∧
      (reFindSubmatch p (pathJoin ["7"])).isSome = true :=
  c3_regex_leaf.2 ⟨[":id"], some "^([0-9]+)$", 3⟩ "^([0-9]+)$" "t" ["7"] []
    [(":id", "7")] rfl (by decide)

/-- C4 counterexample: the code splits the final candidate value on the
FIRST `'.'` (`strings.SplitN(lastOne, ".", 2)`), not the last: on value
`"a.b.c"` it binds `:ext = "b.c"` and `:path = "a"`, while the claim's
last-dot split would give `:ext = "c"`. -/
theorem c4_counterexample :
    leafMatch ⟨[":path", ":ext"], none, 0⟩ "tp" ["a.b.c"] [] =
      some (true, [(":ext", "b.c"), (":path", "a")]) ∧
    lastDotExt "a.b.c" = "c" ∧ ("b.c" : String) ≠ "c" :=
  ⟨by decide, by decide, by decide⟩

/-- C4 (amended): for a leaf with no regex and wildcards exactly
`[:path, :ext]`, leaf matching succeeds whenever at least one candidate
value is present; it splits the final value on the FIRST `'.'`, binds
`:ext` to the post-dot remainder, then `:path` to the join of all earlier
values with the pre-dot remainder; with no `'.'`, `:path` is bound to
everything and `:ext` stays unset. -/
theorem c4_path_ext_pair :
    ∀ (leaf : LeafInfo) (tp : String) (vs : List String) (lastOne : String) (ctx : Ctx),
      leaf.regexps = none → leaf.wildcards = [":path", ":ext"] →
      leafMatch leaf tp (vs ++ [lastOne]) ctx =
        some (true,
          (if (splitN2dot lastOne).length = 2 then
              setParam ctx ":ext" ((splitN2dot lastOne).getD 1 "")
            else ctx) ++
          [(":path", pathJoin [pathJoin vs, (splitN2dot lastOne).getD 0 ""])]) := by
  intro leaf tp vs lastOne ctx hre hwc
  simp [leafMatch, hre, hwc, setParam]

/-- Witness for the amended C4 at concrete values (with and without dot). -/
theorem c4_path_ext_pair_witness :
    leafMatch ⟨[":path", ":ext"], none, 0⟩ "t" (["ab"] ++ ["c.d"]) [] =
      some (true,
        (if (splitN2dot "c.d").length = 2 then
            setParam [] ":ext" ((splitN2dot "c.d").getD 1 "")
          else []) ++
        [(":path", pathJoin [pathJoin ["ab"], (splitN2dot "c.d").getD 0 ""])]) :=
  c4_path_ext_pair ⟨[":path", ":ext"], none, 0⟩ "t" ["ab"] "c.d" [] rfl rfl

end Asana

namespace Asana

set_option maxRecDepth 400000

/-! ## Claims C1 and C5 -/

/-- C1: at every node (hence at every depth), when some literal child's
prefix equals the segment and its recursive match succeeds, that result is
the node's result — computed by the literal pass `fixFirst`, accepted
before (and independently of) the wildcard child, which is never
consulted; e.g. with `/user/list` and `/user/:id` registered,
`Match("/user/list")` yields the literal registration. -/
theorem c1_literal_over_wildcard :
    (∀ (f : Nat) (t : Tree) (tp pat : String) (wv : List String) (ctx : Ctx)
       (r : Nat) (c : Ctx),
      dropSlashes pat ≠ "" →
      fixFirst (fun s cc => treeMatchF f s
          (tpAfterFix t.fixRouters (segOf (dropSlashes pat)) (restOf (dropSlashes pat)) tp)
          (restOf (dropSlashes pat)) wv cc) t.fixRouters (segOf (dropSlashes pat)) ctx
        = some (some r, c) →
      treeMatchF (f + 1) t tp pat wv ctx = some (some r, c) ∧
      treeMatchF (f + 1) t.dropWild tp pat wv ctx = some (some r, c)) ∧
    Match (AddRouter (AddRouter NewTree "/user/list" 1) "/user/:id" 2) "/user/list" []
      = some (some 1, []) := by
  refine ⟨?_, by decide⟩
  intro f t tp pat wv ctx r c h hfix
  obtain ⟨p, fix, wc, lv⟩ := t
  simp only [Tree.fixRouters] at hfix
  constructor
  · simp only [treeMatchF]
    rw [if_neg h]
    simp only [Tree.fixRouters]
    rw [hfix]
  · simp only [Tree.dropWild, treeMatchF]
    rw [if_neg h]
    simp only [Tree.fixRouters]
    rw [hfix]

/-- Witness for C1 at the spec's `/user/list` vs `/user/:id` example. -/
theorem c1_literal_over_wildcard_witness :
    treeMatchF 11 (AddRouter (AddRouter NewTree "/user/list" 1) "/user/:id" 2)
      "user/list" "/user/list" [] [] = some (some 1, []) ∧
    treeMatchF 11 (AddRouter (AddRouter NewTree "/user/list" 1) "/user/:id" 2).dropWild
      "user/list" "/user/list" [] [] = some (some 1, []) :=
  c1_literal_over_wildcard.1 10
    (AddRouter (AddRouter NewTree "/user/list" 1) "/user/:id" 2)
    "user/list" "/user/list" [] [] 1 [] (by decide) (by decide)

/-- C5: when the plain literal pass has failed over a nonempty literal
child list and the `.json`/`.xml`/`.html` suffix-stripping retry loop
succeeds, that is the node's result and the wildcard child is never
consulted; each successful retry binds `:ext` to the stripped extension
(without its dot) immediately after the recursion's success; e.g. with
`/foo` registered, `Match("/foo.json")` succeeds binding `:ext = "json"`. -/
theorem c5_suffix_ext_retry :
    (∀ (f : Nat) (t : Tree) (tp pat : String) (wv : List String) (ctx : Ctx)
       (r : Nat) (c1 c2 : Ctx),
      dropSlashes pat ≠ "" →
      fixFirst (fun s cc => treeMatchF f s
          (tpAfterFix t.fixRouters (segOf (dropSlashes pat)) (restOf (dropSlashes pat)) tp)
          (restOf (dropSlashes pat)) wv cc) t.fixRouters (segOf (dropSlashes pat)) ctx
        = some (none, c1) →
      t.fixRouters.isEmpty = false →
      extLoop (fun s cc => treeMatchF f s
          (tpAfterFix t.fixRouters (segOf (dropSlashes pat)) (restOf (dropSlashes pat)) tp)
          (restOf (dropSlashes pat)) wv cc) allowSuffixExt t.fixRouters
          (segOf (dropSlashes pat)) (none, c1) = some (some r, c2) →
      treeMatchF (f + 1) t tp pat wv ctx = some (some r, c2) ∧
      treeMatchF (f + 1) t.dropWild tp pat wv ctx = some (some r, c2)) ∧
    (∀ (rec : Tree → Ctx → MRes) (s : Tree) (ss : List Tree)
       (target extNoDot : String) (cur : Option Nat × Ctx) (r : Nat) (c : Ctx),
      s.pfx = target → rec s cur.2 = some (some r, c) →
      extFixLoop rec (s :: ss) target extNoDot cur =
        extFixLoop rec ss target extNoDot (some r, setParam c ":ext" extNoDot)) ∧
    Match (AddRouter NewTree "/foo" 1) "/foo.json" [] =
      some (some 1, [(":ext", "json")]) := by
  refine ⟨?_, ?_, by decide⟩
  · intro f t tp pat wv ctx r c1 c2 h hfix hne hext
    obtain ⟨p, fix, wc, lv⟩ := t
    simp only [Tree.fixRouters] at hfix hne hext
    constructor
    · simp only [treeMatchF]
      rw [if_neg h]
      simp only [Tree.fixRouters]
      rw [hfix]
      simp only [hne, if_true, hext]
    · simp only [Tree.dropWild, treeMatchF]
      rw [if_neg h]
      simp only [Tree.fixRouters]
      rw [hfix]
      simp only [hne, if_true, hext]
  · intro rec s ss target extNoDot cur r c hpfx hrec
    simp only [extFixLoop, hpfx, if_pos, hrec]

/-- Witness for C5 at the `/foo` vs `/foo.json` example. -/
theorem c5_suffix_ext_retry_witness :
    treeMatchF 10 (AddRouter NewTree "/foo" 1) "foo.json" "/foo.json" [] [] =
      some (some 1, [(":ext", "json")]) ∧
    treeMatchF 10 (AddRouter NewTree "/foo" 1).dropWild "foo.json" "/foo.json" [] [] =
      some (some 1, [(":ext", "json")]) :=
  c5_suffix_ext_retry.1 9 (AddRouter NewTree "/foo" 1) "foo.json" "/foo.json" [] []
    1 [] [(":ext", "json")] (by decide) (by decide) (by decide) (by decide)

end Asana

namespace Asana

set_option maxRecDepth 400000

/-! ## Context-frame lemmas: matching only appends to the parameter store,
and what it appends does not depend on the store's prior contents. -/

/-- A fold whose step only appends is a single append. -/
theorem foldl_ctx_ext {α : Type} (step : Ctx → α → Ctx)
    (hstep : ∀ c a, step c a = c ++ step [] a) :
    ∀ (l : List α) (ctx : Ctx), l.foldl step ctx = ctx ++ l.foldl step []
  | [], ctx => by simp
  | a :: l, ctx => by
    simp only [List.foldl_cons]
    rw [foldl_ctx_ext step hstep l (step ctx a),
      foldl_ctx_ext step hstep l (step [] a), hstep ctx a, List.append_assoc]

/-- `leafInfo.match` writes a context delta that does not depend on the
incoming context. -/
theorem leafMatch_frame (leaf : LeafInfo) (tp : String) (wv : List String)
    (ctx : Ctx) :
    leafMatch leaf tp wv ctx =
      (leafMatch leaf tp wv []).map (fun bd => (bd.1, ctx ++ bd.2)) := by
  obtain ⟨w, re, ro⟩ := leaf
  cases re with
  | some src =>
    simp only [leafMatch]
    cases hp : reParse src with
    | none => simp [hp]
    | some p =>
      simp only [hp]
      cases hf : reFindSubmatch p (pathJoin wv) with
      | none => simp [hf]
      | some subs =>
        simp only [hf, Option.map_some']
        refine congrArg (fun z => some (true, z)) ?_
        exact foldl_ctx_ext _ (by
          intro c a
          by_cases hl : a < w.length <;> simp [hl, setParam]) _ _
  | none =>
    simp only [leafMatch]
    by_cases h1 : wv = [] ∧ w = []
    · simp [h1]
    · rw [if_neg h1, if_neg h1]
      by_cases h2 : w = [":splat"]
      · simp [h2, setParam]
      · rw [if_neg h2, if_neg h2]
        by_cases h3 : w.length ≥ 2 ∧ w.getD (w.length - 2) "" = ":path" ∧
            w.getD (w.length - 1) "" = ":ext"
        · rw [if_pos h3, if_pos h3]
          by_cases h4 : w.length = 2
          · rw [if_pos h4, if_pos h4]
            cases wv.getLast? with
            | none => rfl
            | some lastOne =>
              by_cases h5 : (splitN2dot lastOne).length = 2 <;>
                simp [h5, setParam]
          · rw [if_neg h4, if_neg h4]
            by_cases h5 : wv.length < 2
            · simp [h5]
            · rw [if_neg h5, if_neg h5]
              by_cases h6 : wv.length < w.length - 2
              · simp [h6]
              · rw [if_neg h6, if_neg h6]
                rw [foldl_ctx_ext _ (by intro c a; simp [setParam]) _ ctx]
                cases wv.getLast? with
                | none => rfl
                | some lastOne =>
                  by_cases h7 : (splitN2dot lastOne).length = 2 <;>
                    by_cases h8 : w.length - 2 > wv.length - 1 <;>
                      simp [h7, h8, setParam]
        · rw [if_neg h3, if_neg h3]
          by_cases h9 : w.length ≠ wv.length
          · simp [h9]
          · rw [if_neg h9, if_neg h9,
              foldl_ctx_ext _ (by intro c a; simp [setParam]) _ ctx]
            simp

end Asana

namespace Asana

set_option maxRecDepth 400000

/-- `leafFirst` only appends a context delta independent of the store. -/
theorem leafFirst_frame (leaves : List LeafInfo) (tp : String)
    (wv : List String) : ∀ (ctx : Ctx),
    leafFirst leaves tp wv ctx =
      (leafFirst leaves tp wv []).map (fun rd => (rd.1, ctx ++ rd.2)) := by
  induction leaves with
  | nil => intro ctx; simp [leafFirst]
  | cons l ls ih =>
    intro ctx
    simp only [leafFirst]
    rw [leafMatch_frame l tp wv ctx]
    cases leafMatch l tp wv [] with
    | none => rfl
    | some bd =>
      obtain ⟨b, d⟩ := bd
      cases b with
      | true => simp
      | false =>
        simp only [Option.map_some']
        rw [ih (ctx ++ d), ih d]
        cases leafFirst ls tp wv [] with
        | none => rfl
        | some rd => simp

/-- `fixFirst` preserves the frame property of its recursion. -/
theorem fixFirst_frame (rec : Tree → Ctx → MRes)
    (hrec : ∀ s c, rec s c = (rec s []).map (fun rd => (rd.1, c ++ rd.2)))
    (l : List Tree) (seg : String) : ∀ (ctx : Ctx),
    fixFirst rec l seg ctx =
      (fixFirst rec l seg []).map (fun rd => (rd.1, ctx ++ rd.2)) := by
  induction l with
  | nil => intro ctx; simp [fixFirst]
  | cons s ss ih =>
    intro ctx
    simp only [fixFirst]
    by_cases hp : s.pfx = seg
    · rw [if_pos hp, if_pos hp, hrec s ctx]
      cases rec s [] with
      | none => rfl
      | some rd =>
        obtain ⟨ro, d⟩ := rd
        cases ro with
        | some r => simp
        | none =>
          simp only [Option.map_some']
          rw [ih (ctx ++ d), ih d]
          cases fixFirst rec ss seg [] with
          | none => rfl
          | some rd' => simp
    · rw [if_neg hp, if_neg hp]
      exact ih ctx

/-- `extFixLoop` preserves the frame property in the context component of
its accumulator. -/
theorem extFixLoop_frame (rec : Tree → Ctx → MRes)
    (hrec : ∀ s c, rec s c = (rec s []).map (fun rd => (rd.1, c ++ rd.2)))
    (l : List Tree) (target e : String) : ∀ (ro : Option Nat) (ctx : Ctx),
    extFixLoop rec l target e (ro, ctx) =
      (extFixLoop rec l target e (ro, [])).map (fun rd => (rd.1, ctx ++ rd.2)) := by
  induction l with
  | nil => intro ro ctx; simp [extFixLoop]
  | cons s ss ih =>
    intro ro ctx
    simp only [extFixLoop]
    by_cases hp : s.pfx = target
    · rw [if_pos hp, if_pos hp]
      rw [hrec s ctx]
      cases rec s [] with
      | none => rfl
      | some rd =>
        obtain ⟨ro', d⟩ := rd
        cases ro' with
        | some r =>
          simp only [Option.map_some']
          rw [show setParam (ctx ++ d) ":ext" e = ctx ++ setParam d ":ext" e by
            simp [setParam]]
          rw [ih (some r) (ctx ++ setParam d ":ext" e), ih (some r) (setParam d ":ext" e)]
          cases extFixLoop rec ss target e (some r, []) with
          | none => rfl
          | some rd' => simp
        | none =>
          simp only [Option.map_some']
          rw [ih none (ctx ++ d), ih none d]
          cases extFixLoop rec ss target e (none, []) with
          | none => rfl
          | some rd' => simp
    · rw [if_neg hp, if_neg hp]
      exact ih ro ctx

/-- `extLoop` preserves the frame property in the context component. -/
theorem extLoop_frame (rec : Tree → Ctx → MRes)
    (hrec : ∀ s c, rec s c = (rec s []).map (fun rd => (rd.1, c ++ rd.2)))
    (exts : List String) (fix : List Tree) (seg : String) :
    ∀ (ro : Option Nat) (ctx : Ctx),
    extLoop rec exts fix seg (ro, ctx) =
      (extLoop rec exts fix seg (ro, [])).map (fun rd => (rd.1, ctx ++ rd.2)) := by
  induction exts with
  | nil => intro ro ctx; simp [extLoop]
  | cons e es ih =>
    intro ro ctx
    simp only [extLoop]
    by_cases hs : strHasSuffix seg e = true
    · rw [if_pos hs, if_pos hs]
      rw [extFixLoop_frame rec hrec fix _ _ ro ctx]
      cases extFixLoop rec fix (strDropRight seg e.data.length)
          (String.mk (e.data.drop 1)) (ro, []) with
      | none => rfl
      | some cur' =>
        obtain ⟨ro', d⟩ := cur'
        simp only [Option.map_some']
        rw [ih ro' (ctx ++ d), ih ro' d]
        cases extLoop rec es fix seg (ro', []) with
        | none => rfl
        | some rd' => simp
    · rw [if_neg hs, if_neg hs]
      exact ih ro ctx

end Asana

namespace Asana

set_option maxRecDepth 400000

/-- The matcher writes a context delta that does not depend on the
incoming context: matching is reading the tree plus appending bindings. -/
theorem treeMatchF_frame : ∀ (f : Nat) (t : Tree) (tp pat : String)
    (wv : List String) (ctx : Ctx),
    treeMatchF f t tp pat wv ctx =
      (treeMatchF f t tp pat wv []).map (fun rd => (rd.1, ctx ++ rd.2)) := by
  intro f
  induction f with
  | zero => intro t tp pat wv ctx; rfl
  | succ f ih =>
    intro t tp pat wv ctx
    obtain ⟨p, fix, wc, lv⟩ := t
    simp only [treeMatchF, Tree.leaves, Tree.fixRouters, Tree.wildCard]
    by_cases hp : dropSlashes pat = ""
    · rw [if_pos hp, if_pos hp]
      rw [leafFirst_frame lv tp wv ctx]
      cases leafFirst lv tp wv [] with
      | none => rfl
      | some rd =>
        obtain ⟨ro, d⟩ := rd
        cases ro with
        | some r => simp
        | none =>
          simp only [Option.map_some']
          cases wc with
          | none => simp
          | some w =>
            obtain ⟨pw, fw, ww, lw⟩ := w
            simp only [Tree.leaves]
            rw [leafFirst_frame lw tp wv (ctx ++ d), leafFirst_frame lw tp wv d]
            cases leafFirst lw tp wv [] with
            | none => rfl
            | some rd' => simp
    · rw [if_neg hp, if_neg hp]
      have hrec : ∀ s c,
          (fun s cc => treeMatchF f s
            (tpAfterFix fix (segOf (dropSlashes pat))
              (restOf (dropSlashes pat)) tp)
            (restOf (dropSlashes pat)) wv cc) s c =
          ((fun s cc => treeMatchF f s
            (tpAfterFix fix (segOf (dropSlashes pat))
              (restOf (dropSlashes pat)) tp)
            (restOf (dropSlashes pat)) wv cc) s []).map
              (fun rd => (rd.1, c ++ rd.2)) := by
        intro s c
        exact ih s _ _ wv c
      rw [fixFirst_frame _ hrec fix
        (segOf (dropSlashes pat)) ctx]
      cases fixFirst (fun s cc => treeMatchF f s
          (tpAfterFix fix (segOf (dropSlashes pat))
            (restOf (dropSlashes pat)) tp)
          (restOf (dropSlashes pat)) wv cc) fix
          (segOf (dropSlashes pat)) [] with
      | none => rfl
      | some rd =>
        obtain ⟨ro, c1⟩ := rd
        cases ro with
        | some r => simp
        | none =>
          simp only [Option.map_some']
          by_cases hfe : fix.isEmpty = false
          · rw [if_pos hfe, if_pos hfe]
            rw [extLoop_frame _ hrec allowSuffixExt _ _ none (ctx ++ c1)]
            rw [extLoop_frame _ hrec allowSuffixExt _ _ none c1]
            cases extLoop (fun s cc => treeMatchF f s
                (tpAfterFix fix (segOf (dropSlashes pat))
                  (restOf (dropSlashes pat)) tp)
                (restOf (dropSlashes pat)) wv cc) allowSuffixExt
                fix (segOf (dropSlashes pat))
                (none, []) with
            | none => rfl
            | some rd' =>
              obtain ⟨ro2, c2⟩ := rd'
              cases ro2 with
              | some r => simp
              | none =>
                simp only [Option.map_some']
                cases wc with
                | none =>
                  simp only [Option.map_some']
                  by_cases hlv : lv ≠ []
                  · rw [if_pos hlv, if_pos hlv]
                    rw [leafFirst_frame lv _ _ (ctx ++ c1 ++ c2),
                      leafFirst_frame lv _ _ (c1 ++ c2)]
                    cases leafFirst lv (tpAfterFix fix
                        (segOf (dropSlashes pat)) (restOf (dropSlashes pat)) tp)
                        ((wv ++ [segOf (dropSlashes pat)]) ++
                          splitRemaining (restOf (dropSlashes pat))) [] with
                    | none => rfl
                    | some rd'' => simp
                  · rw [if_neg hlv, if_neg hlv]
                    simp
                | some w =>
                  simp only [Option.map_some']
                  rw [ih w _ _ _ (ctx ++ c1 ++ c2), ih w _ _ _ (c1 ++ c2)]
                  cases treeMatchF f w (tpAfterFix fix
                      (segOf (dropSlashes pat)) (restOf (dropSlashes pat)) tp)
                      (restOf (dropSlashes pat)) (wv ++ [segOf (dropSlashes pat)]) [] with
                  | none => rfl
                  | some rd'' =>
                    obtain ⟨ro3, c3⟩ := rd''
                    cases ro3 with
                    | some r => simp
                    | none =>
                      simp only [Option.map_some']
                      by_cases hlv : lv ≠ []
                      · rw [if_pos hlv, if_pos hlv]
                        rw [leafFirst_frame lv _ _ (ctx ++ c1 ++ c2 ++ c3),
                          leafFirst_frame lv _ _ (c1 ++ c2 ++ c3)]
                        cases leafFirst lv (tpAfterFix
                            fix
                            (segOf (dropSlashes pat)) (restOf (dropSlashes pat)) tp)
                            ((wv ++ [segOf (dropSlashes pat)]) ++
                              splitRemaining (restOf (dropSlashes pat))) [] with
                        | none => rfl
                        | some rd3 => simp
                      · rw [if_neg hlv, if_neg hlv]
                        simp
          · rw [if_neg hfe, if_neg hfe]
            cases wc with
            | none =>
              simp only [Option.map_some']
              by_cases hlv : lv ≠ []
              · rw [if_pos hlv, if_pos hlv]
                rw [leafFirst_frame lv _ _ (ctx ++ c1), leafFirst_frame lv _ _ c1]
                cases leafFirst lv (tpAfterFix fix
                    (segOf (dropSlashes pat)) (restOf (dropSlashes pat)) tp)
                    ((wv ++ [segOf (dropSlashes pat)]) ++
                      splitRemaining (restOf (dropSlashes pat))) [] with
                | none => rfl
                | some rd'' => simp
              · rw [if_neg hlv, if_neg hlv]
                simp
            | some w =>
              simp only [Option.map_some']
              rw [ih w _ _ _ (ctx ++ c1), ih w _ _ _ c1]
              cases treeMatchF f w (tpAfterFix fix
                  (segOf (dropSlashes pat)) (restOf (dropSlashes pat)) tp)
                  (restOf (dropSlashes pat)) (wv ++ [segOf (dropSlashes pat)]) [] with
              | none => rfl
              | some rd'' =>
                obtain ⟨ro3, c3⟩ := rd''
                cases ro3 with
                | some r => simp
                | none =>
                  simp only [Option.map_some']
                  by_cases hlv : lv ≠ []
                  · rw [if_pos hlv, if_pos hlv]
                    rw [leafFirst_frame lv _ _ (ctx ++ c1 ++ c3),
                      leafFirst_frame lv _ _ (c1 ++ c3)]
                    cases leafFirst lv (tpAfterFix fix
                        (segOf (dropSlashes pat)) (restOf (dropSlashes pat)) tp)
                        ((wv ++ [segOf (dropSlashes pat)]) ++
                          splitRemaining (restOf (dropSlashes pat))) [] with
                    | none => rfl
                    | some rd3 => simp
                  · rw [if_neg hlv, if_neg hlv]
                    simp

end Asana

namespace Asana

set_option maxRecDepth 400000

/-- C9: `Match` is a pure function of the tree and the path (the embedding
takes the tree as an immutable value and returns the context instead of
mutating shared state): the bindings it appends to the request context do
not depend on the context's prior contents, and in particular a second
call on the same unmodified tree and path returns the same endpoint and
appends the identical bindings again. -/
theorem c9_match_pure :
    (∀ (t : Tree) (p : String) (ctx : Ctx),
      Match t p ctx = (Match t p []).map (fun rd => (rd.1, ctx ++ rd.2))) ∧
    (∀ (t : Tree) (p : String) (r : Option Nat) (d : Ctx),
      Match t p [] = some (r, d) → Match t p d = some (r, d ++ d)) := by
  have hmain : ∀ (t : Tree) (p : String) (ctx : Ctx),
      Match t p ctx = (Match t p []).map (fun rd => (rd.1, ctx ++ rd.2)) := by
    intro t p ctx
    by_cases hbad : p.data = [] ∨ p.data.head? ≠ some '/'
    · simp [Match, hbad]
    · simp only [Match, if_neg hbad]
      exact treeMatchF_frame _ _ _ _ _ _
  refine ⟨hmain, ?_⟩
  intro t p r d h
  rw [hmain t p d, h]
  rfl

/-- Witness for C9's idempotence conjunct at a concrete route. -/
theorem c9_match_pure_witness :
    Match (AddRouter NewTree "/person/:last/:first" 5) "/person/anderson/thomas"
        [(":last", "anderson"), (":first", "thomas")] =
      some (some 5, [(":last", "anderson"), (":first", "thomas")] ++
        [(":last", "anderson"), (":first", "thomas")]) :=
  c9_match_pure.2 (AddRouter NewTree "/person/:last/:first" 5)
    "/person/anderson/thomas" (some 5) [(":last", "anderson"), (":first", "thomas")]
    (by decide)

end Asana

namespace Asana

set_option maxRecDepth 400000

/-! ## No-write-on-failure lemmas (claim C10) -/

/-- `leafInfo.match` leaves the context untouched when it returns false
(every `SetParam` in the source lies on a path that returns true). -/
theorem leafMatch_false (leaf : LeafInfo) (tp : String) (wv : List String)
    (ctx c' : Ctx) (h : leafMatch leaf tp wv ctx = some (false, c')) : c' = ctx := by
  obtain ⟨w, re, ro⟩ := leaf
  cases re with
  | some src =>
    cases hp : reParse src with
    | none => simp [leafMatch, hp] at h
    | some p =>
      simp only [leafMatch, hp] at h
      split at h
      · simp only [Option.some.injEq, Prod.mk.injEq] at h
        exact h.2.symm
      · simp at h
  | none =>
    simp only [leafMatch] at h
    repeat' split at h
    all_goals simp_all

end Asana

namespace Asana

set_option maxRecDepth 400000

/-- `leafFirst` leaves the context untouched when no leaf matched. -/
theorem leafFirst_nil (leaves : List LeafInfo) (tp : String) (wv : List String) :
    ∀ (ctx c' : Ctx), leafFirst leaves tp wv ctx = some (none, c') → c' = ctx := by
  induction leaves with
  | nil =>
    intro ctx c' h
    simp only [leafFirst, Option.some.injEq, Prod.mk.injEq] at h
    exact h.2.symm
  | cons l ls ih =>
    intro ctx c' h
    simp only [leafFirst] at h
    cases hm : leafMatch l tp wv ctx with
    | none => rw [hm] at h; cases h
    | some bd =>
      obtain ⟨b, d⟩ := bd
      rw [hm] at h
      cases b with
      | true => simp at h
      | false =>
        have hd := leafMatch_false l tp wv ctx d hm
        rw [hd] at h
        exact ih ctx c' h

/-- `fixFirst` leaves the context untouched when every attempted child
failed, provided the recursion does. -/
theorem fixFirst_nil (rec : Tree → Ctx → MRes) (l : List Tree) (seg : String)
    (hrec : ∀ s, s ∈ l → ∀ (c c'' : Ctx), rec s c = some (none, c'') → c'' = c) :
    ∀ (ctx c' : Ctx), fixFirst rec l seg ctx = some (none, c') → c' = ctx := by
  induction l with
  | nil =>
    intro ctx c' h
    simp only [fixFirst, Option.some.injEq, Prod.mk.injEq] at h
    exact h.2.symm
  | cons s ss ih =>
    intro ctx c' h
    simp only [fixFirst] at h
    by_cases hp : s.pfx = seg
    · rw [if_pos hp] at h
      cases hr : rec s ctx with
      | none => rw [hr] at h; cases h
      | some rd =>
        obtain ⟨ro, d⟩ := rd
        rw [hr] at h
        cases ro with
        | some r => simp at h
        | none =>
          have hd := hrec s (by simp) ctx d hr
          rw [hd] at h
          exact ih (fun u hu => hrec u (by simp [hu])) ctx c' h
    · rw [if_neg hp] at h
      exact ih (fun u hu => hrec u (by simp [hu])) ctx c' h

/-- If no child has the stripped prefix the retry loop is the identity. -/
theorem extFixLoop_skip (rec : Tree → Ctx → MRes) (l : List Tree)
    (target e : String) (h : ∀ s, s ∈ l → s.pfx ≠ target) :
    ∀ (cur : Option Nat × Ctx), extFixLoop rec l target e cur = some cur := by
  induction l with
  | nil => intro cur; rfl
  | cons s ss ih =>
    intro cur
    simp only [extFixLoop, if_neg (h s (by simp))]
    exact ih (fun u hu => h u (by simp [hu])) cur

/-- With pairwise-distinct child prefixes, a run of the retry loop that
ends with the `nil` sentinel made no successful attempt and left the
context untouched. -/
theorem extFixLoop_nil (rec : Tree → Ctx → MRes) (l : List Tree)
    (target e : String) (hnd : nodupStr (l.map Tree.pfx) = true)
    (hrec : ∀ s, s ∈ l → ∀ (c c'' : Ctx), rec s c = some (none, c'') → c'' = c) :
    ∀ (c1 : Ctx) (ro : Option Nat) (c' : Ctx),
      extFixLoop rec l target e (none, c1) = some (ro, c') →
      ro = none → c' = c1 := by
  induction l with
  | nil =>
    intro c1 ro c' h _
    simp only [extFixLoop, Option.some.injEq, Prod.mk.injEq] at h
    exact h.2.symm
  | cons s ss ih =>
    intro c1 ro c' h hro
    simp only [nodupStr, List.map_cons, Bool.and_eq_true, decide_eq_true_eq] at hnd
    obtain ⟨hnotin, hnd'⟩ := hnd
    simp only [extFixLoop] at h
    by_cases hp : s.pfx = target
    · rw [if_pos hp] at h
      cases hr : rec s c1 with
      | none => rw [hr] at h; cases h
      | some rd =>
        obtain ⟨ro', d⟩ := rd
        rw [hr] at h
        cases ro' with
        | some r =>
          replace h : extFixLoop rec ss target e
              (some r, setParam d ":ext" e) = some (ro, c') := h
          rw [extFixLoop_skip rec ss target e
            (fun u hu hq => hnotin (by
              rw [hp, ← hq]
              exact List.mem_map_of_mem Tree.pfx hu))] at h
          simp only [Option.some.injEq, Prod.mk.injEq] at h
          rw [← h.1] at hro
          cases hro
        | none =>
          replace h : extFixLoop rec ss target e (none, d) = some (ro, c') := h
          have hd := hrec s (by simp) c1 d hr
          rw [hd] at h
          exact ih hnd' (fun u hu => hrec u (by simp [hu])) c1 ro c' h hro
    · rw [if_neg hp] at h
      exact ih hnd' (fun u hu => hrec u (by simp [hu])) c1 ro c' h hro

end Asana

namespace Asana

set_option maxRecDepth 400000

/-- Two suffixes of one string whose lengths differ by one: dropping the
first character of the longer yields the shorter. -/
theorem suffix_drop1 (s a b : String) (hl : a.data.length + 1 = b.data.length)
    (ha : strHasSuffix s a = true) (hb : strHasSuffix s b = true) :
    b.data.drop 1 = a.data := by
  simp only [strHasSuffix, ge_iff_le, Bool.decide_and, Bool.and_eq_true,
    decide_eq_true_eq] at ha hb
  obtain ⟨hla, hda⟩ := ha
  obtain ⟨hlb, hdb⟩ := hb
  rw [← hdb, ← hda, List.drop_drop]
  congr 1
  omega

/-- Two suffixes of one string with equal lengths are equal. -/
theorem suffix_eqlen (s a b : String) (hl : a.data.length = b.data.length)
    (ha : strHasSuffix s a = true) (hb : strHasSuffix s b = true) :
    a.data = b.data := by
  simp only [strHasSuffix, ge_iff_le, Bool.decide_and, Bool.and_eq_true,
    decide_eq_true_eq] at ha hb
  rw [← ha.2, ← hb.2, hl]

/-- The three entries of `allowSuffixExt` are mutually exclusive as
suffixes of any one segment. -/
theorem allowSuffixExt_one (seg : String) :
    atMostOneSuffix seg allowSuffixExt = true := by
  simp only [allowSuffixExt, atMostOneSuffix]
  by_cases hj : strHasSuffix seg ".json" = true
  · rw [if_pos hj]
    simp only [List.all_cons, List.all_nil, Bool.and_true, Bool.and_eq_true,
      Bool.not_eq_true']
    constructor
    · by_cases hx : strHasSuffix seg ".xml" = true
      · have := suffix_drop1 seg ".xml" ".json" (by decide) hx hj
        simp at this
      · simpa using hx
    · by_cases hh : strHasSuffix seg ".html" = true
      · have := suffix_eqlen seg ".json" ".html" (by decide) hj hh
        simp at this
      · simpa using hh
  · rw [if_neg hj]
    by_cases hx : strHasSuffix seg ".xml" = true
    · rw [if_pos hx]
      simp only [List.all_cons, List.all_nil, Bool.and_true, Bool.not_eq_true']
      by_cases hh : strHasSuffix seg ".html" = true
      · have := suffix_drop1 seg ".xml" ".html" (by decide) hx hh
        simp at this
      · simpa using hh
    · rw [if_neg hx]
      split <;> simp

/-- If no listed extension is a suffix, the extension loop is the identity. -/
theorem extLoop_skip (rec : Tree → Ctx → MRes) (exts : List String)
    (fix : List Tree) (seg : String)
    (h : ∀ e, e ∈ exts → strHasSuffix seg e = false) :
    ∀ (cur : Option Nat × Ctx), extLoop rec exts fix seg cur = some cur := by
  induction exts with
  | nil => intro cur; rfl
  | cons e es ih =>
    intro cur
    simp only [extLoop, h e (by simp)]
    exact ih (fun u hu => h u (by simp [hu])) cur

/-- With distinct child prefixes and at most one applicable extension, an
extension-loop run ending in the `nil` sentinel leaves the context
untouched. -/
theorem extLoop_nil (rec : Tree → Ctx → MRes) (exts : List String)
    (fix : List Tree) (seg : String)
    (hone : atMostOneSuffix seg exts = true)
    (hnd : nodupStr (fix.map Tree.pfx) = true)
    (hrec : ∀ s, s ∈ fix → ∀ (c c'' : Ctx), rec s c = some (none, c'') → c'' = c) :
    ∀ (c1 : Ctx) (ro : Option Nat) (c' : Ctx),
      extLoop rec exts fix seg (none, c1) = some (ro, c') → ro = none → c' = c1 := by
  induction exts with
  | nil =>
    intro c1 ro c' h _
    simp only [extLoop, Option.some.injEq, Prod.mk.injEq] at h
    exact h.2.symm
  | cons e es ih =>
    intro c1 ro c' h hro
    simp only [extLoop] at h
    by_cases hs : strHasSuffix seg e = true
    · rw [if_pos hs] at h
      simp only [atMostOneSuffix, hs, if_true, List.all_eq_true] at hone
    
      cases hx : extFixLoop rec fix (strDropRight seg e.data.length)
          (String.mk (e.data.drop 1)) (none, c1) with
      | none => rw [hx] at h; cases h
      | some cur' =>
        obtain ⟨ro2, c2⟩ := cur'
        rw [hx] at h
        replace h : extLoop rec es fix seg (ro2, c2) = some (ro, c') := h
        rw [extLoop_skip rec es fix seg
          (fun u hu => by simpa using hone u hu) (ro2, c2)] at h
        simp only [Option.some.injEq, Prod.mk.injEq] at h
        obtain ⟨h1, h2⟩ := h
        subst h1
        subst hro
        rw [← h2]
        exact extFixLoop_nil rec fix _ _ hnd hrec c1 none c2 hx rfl
    · rw [if_neg hs] at h
      simp only [atMostOneSuffix, hs, if_false] at hone
      exact ih hone c1 ro c' h hro

end Asana

namespace Asana

set_option maxRecDepth 400000

/-- Trichotomy of the matcher under pairwise-distinct child prefixes:
every call panics, succeeds, or returns the nil sentinel with the context
exactly as given. -/
theorem treeMatchF_tri : ∀ (f fl : Nat) (t : Tree) (tp pat : String)
    (wv : List String) (ctx : Ctx), distinctFix fl t = true →
    treeMatchF f t tp pat wv ctx = none ∨
    (∃ r c', treeMatchF f t tp pat wv ctx = some (some r, c')) ∨
    treeMatchF f t tp pat wv ctx = some (none, ctx) := by
  intro f
  induction f with
  | zero => intro fl t tp pat wv ctx _; left; rfl
  | succ f ih =>
    intro fl t tp pat wv ctx hd
    cases fl with
    | zero =>
      obtain ⟨p, fix, wc, lv⟩ := t
      simp [distinctFix] at hd
    | succ fl =>
      obtain ⟨p, fix, wc, lv⟩ := t
      simp only [distinctFix, Bool.and_eq_true, List.all_eq_true] at hd
      obtain ⟨⟨hnd, hfix⟩, hwc⟩ := hd
      have hrecnil : ∀ s, s ∈ fix → ∀ (t1 r1 : String) (w1 : List String)
          (c c2 : Ctx), treeMatchF f s t1 r1 w1 c = some (none, c2) → c2 = c := by
        intro s hs t1 r1 w1 c c2 hh
        rcases ih fl s t1 r1 w1 c (hfix s hs) with h1 | ⟨r, cx, h1⟩ | h1 <;>
          rw [h1] at hh
        · cases hh
        · simp at hh
        · injection hh with h2
          injection h2 with h3 h4
          exact h4.symm
      simp only [treeMatchF, Tree.leaves, Tree.fixRouters, Tree.wildCard]
      by_cases hp : dropSlashes pat = ""
      · rw [if_pos hp]
        cases hx : leafFirst lv tp wv ctx with
        | none => left; rfl
        | some rd =>
          obtain ⟨ro, c⟩ := rd
          cases ro with
          | some r => right; left; exact ⟨r, c, rfl⟩
          | none =>
            have hc : c = ctx := leafFirst_nil lv tp wv ctx c hx
            rw [hc]
            dsimp only
            cases wc with
            | none => right; right; rfl
            | some w =>
              obtain ⟨pw, fw, ww, lw⟩ := w
              dsimp only
              cases hy : leafFirst lw tp wv ctx with
              | none => left; rfl
              | some rd2 =>
                obtain ⟨ro2, c4⟩ := rd2
                cases ro2 with
                | some r => right; left; exact ⟨r, c4, rfl⟩
                | none =>
                  rw [leafFirst_nil lw tp wv ctx c4 hy]
                  right; right; rfl
      · rw [if_neg hp]
        cases hx : fixFirst (fun s cc => treeMatchF f s
            (tpAfterFix fix (segOf (dropSlashes pat))
              (restOf (dropSlashes pat)) tp)
            (restOf (dropSlashes pat)) wv cc) fix
            (segOf (dropSlashes pat)) ctx with
        | none => left; rfl
        | some rd =>
          obtain ⟨ro, c1⟩ := rd
          cases ro with
          | some r => right; left; exact ⟨r, c1, rfl⟩
          | none =>
            have hc1 : c1 = ctx := fixFirst_nil _ fix _
              (fun s hs c c2 hh => hrecnil s hs _ _ _ c c2 hh) ctx c1 hx
            rw [hc1]
            dsimp only
            by_cases hfe : fix.isEmpty = false
            · rw [if_pos hfe]
              cases hy : extLoop (fun s cc => treeMatchF f s
                  (tpAfterFix fix (segOf (dropSlashes pat))
                    (restOf (dropSlashes pat)) tp)
                  (restOf (dropSlashes pat)) wv cc) allowSuffixExt fix
                  (segOf (dropSlashes pat)) (none, ctx) with
              | none => left; rfl
              | some rd2 =>
                obtain ⟨ro2, c2⟩ := rd2
                cases ro2 with
                | some r => right; left; exact ⟨r, c2, rfl⟩
                | none =>
                  have hc2 : c2 = ctx := extLoop_nil _ allowSuffixExt fix _
                    (allowSuffixExt_one _) hnd
                    (fun s hs c c2' hh => hrecnil s hs _ _ _ c c2' hh)
                    ctx none c2 hy rfl
                  rw [hc2]
                  dsimp only
                  cases wc with
                  | none =>
                    dsimp only
                    by_cases hlv : lv ≠ []
                    · rw [if_pos hlv]
                      cases hw2 : leafFirst lv
                          (tpAfterFix fix (segOf (dropSlashes pat))
                            (restOf (dropSlashes pat)) tp)
                          ((wv ++ [segOf (dropSlashes pat)]) ++
                            splitRemaining (restOf (dropSlashes pat))) ctx with
                      | none => left; rfl
                      | some rd4 =>
                        obtain ⟨ro4, c4⟩ := rd4
                        cases ro4 with
                        | some r => right; left; exact ⟨r, c4, rfl⟩
                        | none =>
                          rw [leafFirst_nil _ _ _ ctx c4 hw2]
                          right; right; rfl
                    · rw [if_neg hlv]
                      right; right; rfl
                  | some w =>
                    dsimp only
                    replace hwc : distinctFix fl w = true := hwc
                    cases hz : treeMatchF f w
                        (tpAfterFix fix (segOf (dropSlashes pat))
                          (restOf (dropSlashes pat)) tp)
                        (restOf (dropSlashes pat))
                        (wv ++ [segOf (dropSlashes pat)]) ctx with
                    | none => left; rfl
                    | some rd3 =>
                      obtain ⟨ro3, c3⟩ := rd3
                      cases ro3 with
                      | some r => right; left; exact ⟨r, c3, rfl⟩
                      | none =>
                        have hc3 : c3 = ctx := by
                          have h1 := ih fl w
                            (tpAfterFix fix (segOf (dropSlashes pat))
                              (restOf (dropSlashes pat)) tp)
                            (restOf (dropSlashes pat))
                            (wv ++ [segOf (dropSlashes pat)]) ctx hwc
                          rcases h1 with h1 | ⟨r, cx, h1⟩ | h1 <;> rw [h1] at hz
                          · cases hz
                          · simp at hz
                          · injection hz with h2
                            injection h2 with h3 h4
                            exact h4.symm
                        rw [hc3]
                        dsimp only
                        by_cases hlv : lv ≠ []
                        · rw [if_pos hlv]
                          cases hw2 : leafFirst lv
                              (tpAfterFix fix (segOf (dropSlashes pat))
                                (restOf (dropSlashes pat)) tp)
                              ((wv ++ [segOf (dropSlashes pat)]) ++
                                splitRemaining (restOf (dropSlashes pat))) ctx with
                          | none => left; rfl
                          | some rd4 =>
                            obtain ⟨ro4, c4⟩ := rd4
                            cases ro4 with
                            | some r => right; left; exact ⟨r, c4, rfl⟩
                            | none =>
                              rw [leafFirst_nil _ _ _ ctx c4 hw2]
                              right; right; rfl
                        · rw [if_neg hlv]
                          right; right; rfl
            · rw [if_neg hfe]
              dsimp only
              cases wc with
              | none =>
                dsimp only
                by_cases hlv : lv ≠ []
                · rw [if_pos hlv]
                  cases hw2 : leafFirst lv
                      (tpAfterFix fix (segOf (dropSlashes pat))
                        (restOf (dropSlashes pat)) tp)
                      ((wv ++ [segOf (dropSlashes pat)]) ++
                        splitRemaining (restOf (dropSlashes pat))) ctx with
                  | none => left; rfl
                  | some rd4 =>
                    obtain ⟨ro4, c4⟩ := rd4
                    cases ro4 with
                    | some r => right; left; exact ⟨r, c4, rfl⟩
                    | none =>
                      rw [leafFirst_nil _ _ _ ctx c4 hw2]
                      right; right; rfl
                · rw [if_neg hlv]
                  right; right; rfl
              | some w =>
                dsimp only
                replace hwc : distinctFix fl w = true := hwc
                cases hz : treeMatchF f w
                    (tpAfterFix fix (segOf (dropSlashes pat))
                      (restOf (dropSlashes pat)) tp)
                    (restOf (dropSlashes pat))
                    (wv ++ [segOf (dropSlashes pat)]) ctx with
                | none => left; rfl
                | some rd3 =>
                  obtain ⟨ro3, c3⟩ := rd3
                  cases ro3 with
                  | some r => right; left; exact ⟨r, c3, rfl⟩
                  | none =>
                    have hc3 : c3 = ctx := by
                      have h1 := ih fl w
                        (tpAfterFix fix (segOf (dropSlashes pat))
                          (restOf (dropSlashes pat)) tp)
                        (restOf (dropSlashes pat))
                        (wv ++ [segOf (dropSlashes pat)]) ctx hwc
                      rcases h1 with h1 | ⟨r, cx, h1⟩ | h1 <;> rw [h1] at hz
                      · cases hz
                      · simp at hz
                      · injection hz with h2
                        injection h2 with h3 h4
                        exact h4.symm
                    rw [hc3]
                    dsimp only
                    by_cases hlv : lv ≠ []
                    · rw [if_pos hlv]
                      cases hw2 : leafFirst lv
                          (tpAfterFix fix (segOf (dropSlashes pat))
                            (restOf (dropSlashes pat)) tp)
                          ((wv ++ [segOf (dropSlashes pat)]) ++
                            splitRemaining (restOf (dropSlashes pat))) ctx with
                      | none => left; rfl
                      | some rd4 =>
                        obtain ⟨ro4, c4⟩ := rd4
                        cases ro4 with
                        | some r => right; left; exact ⟨r, c4, rfl⟩
                        | none =>
                          rw [leafFirst_nil _ _ _ ctx c4 hw2]
                          right; right; rfl
                    · rw [if_neg hlv]
                      right; right; rfl

/-- Under pairwise-distinct child prefixes, a nil-sentinel result carries
the incoming context unchanged. -/
theorem treeMatchF_nilctx (f fl : Nat) (t : Tree) (tp pat : String)
    (wv : List String) (ctx c' : Ctx) (hd : distinctFix fl t = true)
    (h : treeMatchF f t tp pat wv ctx = some (none, c')) : c' = ctx := by
  rcases treeMatchF_tri f fl t tp pat wv ctx hd with h1 | ⟨r, cx, h1⟩ | h1 <;>
    rw [h1] at h
  · cases h
  · simp at h
  · injection h with h2
    injection h2 with h3 h4
    exact h4.symm

end Asana

namespace Asana

set_option maxRecDepth 400000

/-- C10 counterexample.  Register `/foo` with `AddRouter`, then graft an
empty subtree under the same prefix `/foo` with `AddTree`: the root now has
two literal children with prefix `foo`.  Matching `/foo.json` returns the
nil sentinel, yet the returned context carries the binding `:ext = json`:
the suffix-extension retry loop has no `break`, so a later failing child
with the same stripped prefix overwrites the earlier success's `runObject`
while its `:ext` binding stays in the context. -/
theorem c10_counterexample :
    (AddTree 50 (AddRouter NewTree "/foo" 1) "/foo" NewTree).map
        (fun t => Match t "/foo.json" []) =
      some (some (none, [(":ext", "json")])) ∧
    ([(":ext", "json")] : Ctx) ≠ ([] : Ctx) := by
  constructor
  · decide
  · decide

/-- C10 (amended): on every tree whose literal children have pairwise
distinct prefixes at each node (`distinctFix` — an invariant of trees
built by `AddRouter` alone, which `AddTree` can break by duplicating a
prefix), whenever `Match` returns the nil sentinel the context is exactly
the one passed in: no parameter binding has been written.  This covers in
particular the empty path and paths not starting with `/`. -/
theorem c10_no_write_on_nil (fl : Nat) (t : Tree) (pattern : String)
    (ctx c' : Ctx) (hd : distinctFix fl t = true)
    (h : Match t pattern ctx = some (none, c')) : c' = ctx := by
  unfold Match at h
  by_cases hq : pattern.data = [] ∨ pattern.data.head? ≠ some '/'
  · rw [if_pos hq] at h
    injection h with h2
    injection h2 with h3 h4
    exact h4.symm
  · rw [if_neg hq] at h
    exact treeMatchF_nilctx (pattern.data.length + 1) fl t
      (String.mk (pattern.data.drop 1)) pattern [] ctx c' hd h

theorem c10_no_write_on_nil_witness :
    distinctFix 5 (AddRouter NewTree "/user/list" 1) = true ∧
    ([("a", "b")] : Ctx) = [("a", "b")] :=
  ⟨by decide, c10_no_write_on_nil 5 (AddRouter NewTree "/user/list" 1)
    "/nope" [("a", "b")] [("a", "b")] (by decide) (by decide)⟩

end Asana

namespace Asana

/-! ## String lemmas for paths built from slash-free segments -/

theorem strMk_data (s : String) : String.mk s.data = s := by
  cases s; rfl

theorem contains_false_forall (xs : List Char) (a : Char)
    (h : xs.contains a = false) : ∀ c ∈ xs, c ≠ a := by
  induction xs with
  | nil => intro c hc; cases hc
  | cons x t ih =>
    intro c hc
    simp only [List.contains_cons, Bool.or_eq_false_iff, beq_eq_false_iff_ne] at h
    rcases List.mem_cons.mp hc with hc | hc
    · rw [hc]; exact fun he => h.1 he.symm
    · exact ih h.2 c hc

theorem dropWhile_head_neg (p : Char → Bool) (xs : List Char) (c : Char)
    (h : xs.head? = some c) (hc : p c = false) : xs.dropWhile p = xs := by
  cases xs with
  | nil => cases h
  | cons x t =>
    injection h with h
    rw [← h] at hc
    simp [List.dropWhile_cons, hc]

theorem takeWhile_all_pos (p : Char → Bool) :
    ∀ xs : List Char, (∀ c ∈ xs, p c = true) → xs.takeWhile p = xs := by
  intro xs
  induction xs with
  | nil => intro _; rfl
  | cons x t ih =>
    intro h
    simp [List.takeWhile_cons, h x (by simp), ih (fun c hc => h c (by simp [hc]))]

theorem takeWhile_append_stop (p : Char → Bool) (y : Char) (ys : List Char)
    (hy : p y = false) :
    ∀ xs : List Char, (∀ c ∈ xs, p c = true) →
      (xs ++ y :: ys).takeWhile p = xs := by
  intro xs
  induction xs with
  | nil => intro _; simp [List.takeWhile_cons, hy]
  | cons x t ih =>
    intro h
    simp [List.cons_append, List.takeWhile_cons, h x (by simp),
      ih (fun c hc => h c (by simp [hc]))]

theorem dropWhile_append_stop (p : Char → Bool) (y : Char) (ys : List Char)
    (hy : p y = false) :
    ∀ xs : List Char, (∀ c ∈ xs, p c = true) →
      (xs ++ y :: ys).dropWhile p = y :: ys := by
  intro xs
  induction xs with
  | nil => intro _; simp [List.dropWhile_cons, hy]
  | cons x t ih =>
    intro h
    simp [List.cons_append, List.dropWhile_cons, h x (by simp),
      ih (fun c hc => h c (by simp [hc]))]

end Asana

namespace Asana

theorem joinSlash_cons_cons (s s2 : String) (ss : List String) :
    joinSlash (s :: s2 :: ss) = s ++ "/" ++ joinSlash (s2 :: ss) := rfl

theorem joinSlash_single (s : String) : joinSlash [s] = s := rfl

theorem joinSlash_cons_data (s : String) (rest : List String) (h : rest ≠ []) :
    (joinSlash (s :: rest)).data = s.data ++ '/' :: (joinSlash rest).data := by
  cases rest with
  | nil => cases h rfl
  | cons s2 ss =>
    rw [joinSlash_cons_cons]
    simp [String.data_append]

theorem joinSlash_head (s : String) (rest : List String) (h : s.data ≠ []) :
    (joinSlash (s :: rest)).data.head? = s.data.head? := by
  cases rest with
  | nil => rfl
  | cons s2 ss =>
    rw [joinSlash_cons_data s _ (by simp)]
    cases hx : s.data with
    | nil => cases h hx
    | cons c t => simp

theorem joinSlash_getLast (ss : List String) (t : String) (h : t.data ≠ []) :
    (joinSlash (ss ++ [t])).data.getLast? = t.data.getLast? := by
  induction ss with
  | nil => rfl
  | cons s ss2 ih =>
    rw [List.cons_append, joinSlash_cons_data s _ (by simp)]
    rw [List.getLast?_append]
    have hJ : (joinSlash (ss2 ++ [t])).data ≠ [] := by
      intro he
      rw [he] at ih
      cases hx : t.data with
      | nil => exact h hx
      | cons c u => rw [hx] at ih; simp [List.getLast?_cons] at ih
    cases hx : (joinSlash (ss2 ++ [t])).data with
    | nil => cases hJ hx
    | cons b u =>
      rw [List.getLast?_cons_cons, ← hx, ih]
      cases hy : t.data with
      | nil => cases h hy
      | cons c w => simp [List.getLast?_cons]

end Asana

namespace Asana

theorem dropWhile_all_pos (p : Char → Bool) :
    ∀ xs : List Char, (∀ c ∈ xs, p c = true) → xs.dropWhile p = [] := by
  intro xs
  induction xs with
  | nil => intro _; rfl
  | cons x t ih =>
    intro h
    simp [List.dropWhile_cons, h x (by simp), ih (fun c hc => h c (by simp [hc]))]

theorem dropSlashes_of_head (X : String) (c : Char) (hh : X.data.head? = some c)
    (hc : c ≠ '/') : dropSlashes ("/" ++ X) = X := by
  unfold dropSlashes
  have hd : ("/" ++ X).data = '/' :: X.data := by rw [String.data_append]; rfl
  rw [hd, List.dropWhile_cons, if_pos (by decide),
    dropWhile_head_neg _ X.data c hh (by simp [hc])]

theorem segOf_parts (s : String) (rest : List String)
    (hs : ∀ c ∈ s.data, c ≠ '/') :
    segOf (joinSlash (s :: rest)) = s ∧
    restOf (joinSlash (s :: rest)) =
      (if rest = [] then "" else "/" ++ joinSlash rest) := by
  cases rest with
  | nil =>
    refine ⟨?_, ?_⟩
    · unfold segOf
      rw [joinSlash_single, takeWhile_all_pos _ s.data (fun c hc => by simp [hs c hc])]
    · unfold restOf
      rw [joinSlash_single, if_pos rfl,
        dropWhile_all_pos _ s.data (fun c hc => by simp [hs c hc])]
  | cons s2 ss =>
    refine ⟨?_, ?_⟩
    · unfold segOf
      rw [joinSlash_cons_data s _ (by simp),
        takeWhile_append_stop _ '/' _ (by decide) s.data (fun c hc => by simp [hs c hc])]
    · unfold restOf
      rw [joinSlash_cons_data s _ (by simp),
        dropWhile_append_stop _ '/' _ (by decide) s.data (fun c hc => by simp [hs c hc]),
        if_neg (by simp)]
      have h2 := strMk_data ("/" ++ joinSlash (s2 :: ss))
      rw [show ("/" ++ joinSlash (s2 :: ss)).data = '/' :: (joinSlash (s2 :: ss)).data
        from by rw [String.data_append]; rfl] at h2
      exact h2

theorem splitSlashAux_no_slash :
    ∀ (xs acc : List Char), (∀ c ∈ xs, c ≠ '/') →
      splitSlashAux xs acc = [String.mk (acc.reverse ++ xs)] := by
  intro xs
  induction xs with
  | nil => intro acc _; simp [splitSlashAux]
  | cons x t ih =>
    intro acc h
    rw [splitSlashAux, if_neg (h x (by simp)), ih (x :: acc) (fun c hc => h c (by simp [hc]))]
    simp

theorem splitSlashAux_break :
    ∀ (xs rest acc : List Char), (∀ c ∈ xs, c ≠ '/') →
      splitSlashAux (xs ++ '/' :: rest) acc =
        String.mk (acc.reverse ++ xs) :: splitSlashAux rest [] := by
  intro xs
  induction xs with
  | nil =>
    intro rest acc _
    rw [List.nil_append, splitSlashAux, if_pos rfl]
    simp
  | cons x t ih =>
    intro rest acc h
    rw [List.cons_append, splitSlashAux, if_neg (h x (by simp)),
      ih rest (x :: acc) (fun c hc => h c (by simp [hc]))]
    simp

theorem splitSlash_join :
    ∀ (ss : List String), (∀ s ∈ ss, s.data.contains '/' = false) →
      ss ≠ [] → splitSlash (joinSlash ss) = ss := by
  intro ss
  induction ss with
  | nil => intro _ h; cases h rfl
  | cons s rest ih =>
    intro h _
    cases rest with
    | nil =>
      unfold splitSlash
      rw [joinSlash_single,
        splitSlashAux_no_slash s.data [] (contains_false_forall s.data '/' (h s (by simp)))]
      simp [strMk_data]
    | cons s2 ss2 =>
      unfold splitSlash
      rw [joinSlash_cons_data s _ (by simp),
        splitSlashAux_break s.data _ [] (contains_false_forall s.data '/' (h s (by simp)))]
      have hrec := ih (fun u hu => h u (by simp [hu])) (by simp)
      unfold splitSlash at hrec
      rw [hrec]
      simp [strMk_data]

theorem strTrimCut_path (X : String) (c1 cl : Char)
    (hh : X.data.head? = some c1) (h1 : (['/', ' '] : List Char).contains c1 = false)
    (hl : X.data.getLast? = some cl) (h2 : (['/', ' '] : List Char).contains cl = false) :
    strTrimCut ['/', ' '] ("/" ++ X) = X := by
  unfold strTrimCut
  have hd : ("/" ++ X).data = '/' :: X.data := by rw [String.data_append]; rfl
  rw [hd, List.dropWhile_cons, if_pos (by decide),
    dropWhile_head_neg _ X.data c1 hh h1,
    dropWhile_head_neg _ X.data.reverse cl (by rw [List.head?_reverse]; exact hl) h2,
    List.reverse_reverse]

end Asana

namespace Asana

theorem goodSeg_head_last (s : String) (h : goodSeg s) :
    (∃ c, s.data.head? = some c ∧ (['/', ' '] : List Char).contains c = false) ∧
    (∃ c, s.data.getLast? = some c ∧ (['/', ' '] : List Char).contains c = false) := by
  obtain ⟨hne, hsl, hsp⟩ := h
  have hall : ∀ c ∈ s.data, (['/', ' '] : List Char).contains c = false := by
    intro c hc
    have n1 := contains_false_forall s.data '/' hsl c hc
    have n2 := contains_false_forall s.data ' ' hsp c hc
    simp [List.contains_cons, n1, n2]
  constructor
  · cases hx : s.data with
    | nil => cases hne hx
    | cons c t => exact ⟨c, rfl, hall c (by rw [hx]; simp)⟩
  · cases hx : s.data.getLast? with
    | none => rw [List.getLast?_eq_none_iff] at hx; cases hne hx
    | some c =>
      refine ⟨c, rfl, hall c ?_⟩
      exact List.mem_of_mem_getLast? hx

theorem splitPath_join (ss : List String)
    (h : ∀ s ∈ ss, goodSeg s) (hne : ss ≠ []) :
    splitPath ("/" ++ joinSlash ss) = ss := by
  have hlast := List.dropLast_append_getLast hne
  obtain ⟨c1, hh1, hc1⟩ : ∃ c, (joinSlash ss).data.head? = some c ∧
      (['/', ' '] : List Char).contains c = false := by
    cases hx : ss with
    | nil => cases hne hx
    | cons s rest =>
      obtain ⟨⟨c, hch, hcc⟩, _⟩ := goodSeg_head_last s (h s (by rw [hx]; simp))
      exact ⟨c, by rw [joinSlash_head s rest (h s (by rw [hx]; simp)).1, hch], hcc⟩
  obtain ⟨cl, hl1, hcl⟩ : ∃ c, (joinSlash ss).data.getLast? = some c ∧
      (['/', ' '] : List Char).contains c = false := by
    have hmem : ss.getLast hne ∈ ss := List.getLast_mem hne
    obtain ⟨_, ⟨c, hcl2, hcc⟩⟩ := goodSeg_head_last (ss.getLast hne) (h _ hmem)
    refine ⟨c, ?_, hcc⟩
    rw [← hlast, joinSlash_getLast ss.dropLast (ss.getLast hne) (h _ hmem).1]
    exact hcl2
  unfold splitPath
  rw [strTrimCut_path (joinSlash ss) c1 cl hh1 hc1 hl1 hcl]
  rw [if_neg (by
    intro he
    have := congrArg String.data he
    simp only [] at this
    rw [this] at hh1
    cases hh1)]
  exact splitSlash_join ss (fun s hs => (h s hs).2.1) hne

end Asana

namespace Asana

/-- Inserting a literal segment into a node with no literal children yet
appends one fresh child and recurses into it. -/
theorem addSeg_lit (p seg : String) (wc : Option Tree) (lv : List LeafInfo)
    (rest : List String) (route : Nat)
    (hsplit : splitSegment seg = (false, [], "")) :
    addSeg (Tree.node p [] wc lv) (seg :: rest) route [] "" =
      Tree.node p [addSeg (emptyNode seg) rest route [] ""] wc lv := by
  simp only [addSeg, hsplit]
  simp [addSegRest, Tree.fixRouters, Tree.wildCard, Tree.setFix]

/-- Inserting a final optional plain-parameter segment: the continuation
leaf is pushed at the node and a wildcard child binding the parameter is
created. -/
theorem addSeg_opt (p og name : String) (lv : List LeafInfo) (route : Nat)
    (hsplit : splitSegment og = (true, [":", ":" ++ name], "")) :
    addSeg (Tree.node p [] none lv) [og] route [] "" =
      Tree.node p []
        (some (Tree.node "" [] none [⟨[":" ++ name], none, route⟩]))
        (lv ++ [⟨[], none, route⟩]) := by
  by_cases hstar : og = "*.*"
  · subst hstar
    have hcontra := hsplit.symm.trans
      (by decide : splitSegment "*.*" = (true, [".", ":path", ":ext"], ""))
    have h3 := congrArg (fun q => q.2.1.head?) hcontra
    simp at h3
  · simp only [addSeg, hsplit]
    simp [addSegRest, addSeg, Tree.fixRouters, Tree.wildCard, Tree.setWildCard,
      Tree.pushLeaf, NewTree, hstar]

end Asana

namespace Asana

/-- Registering a literal chain followed by one optional plain parameter
into a fresh node produces exactly the spine `chainNode`. -/
theorem addSeg_chain : ∀ (ss : List String) (p og name : String) (route : Nat),
    (∀ s ∈ ss, splitSegment s = (false, [], "")) →
    splitSegment og = (true, [":", ":" ++ name], "") →
    addSeg (Tree.node p [] none []) (ss ++ [og]) route [] "" =
      chainNode p name route ss := by
  intro ss
  induction ss with
  | nil =>
    intro p og name route _ hopt
    rw [List.nil_append, addSeg_opt p og name [] route hopt]
    rfl
  | cons s ss2 ih =>
    intro p og name route h hopt
    rw [List.cons_append, addSeg_lit p s none [] _ route (h s (by simp)),
      show emptyNode s = Tree.node s [] none [] from rfl,
      ih s og name route (fun u hu => h u (by simp [hu])) hopt]
    rfl

theorem AddRouter_chain (pre : List String) (og name : String) (route : Nat)
    (hss : ∀ s ∈ pre, splitSegment s = (false, [], ""))
    (hgood : ∀ s ∈ pre ++ [og], goodSeg s)
    (hopt : splitSegment og = (true, [":", ":" ++ name], "")) :
    AddRouter NewTree ("/" ++ joinSlash (pre ++ [og])) route =
      chainNode "" name route pre := by
  unfold AddRouter
  rw [splitPath_join _ hgood (by simp)]
  exact addSeg_chain pre "" og name route hss hopt

end Asana

namespace Asana

theorem append_left_cancel_str (p a b : String) (h : p ++ a = p ++ b) : a = b := by
  have hd := congrArg String.data h
  rw [String.data_append, String.data_append] at hd
  have h2 := List.append_cancel_left hd
  have h3 := congrArg String.mk h2
  rwa [strMk_data, strMk_data] at h3

/-- A leaf with no wildcards and no regex accepts exactly the empty value
list, writing nothing. -/
theorem leafMatch_static (tp : String) (route : Nat) (ctx : Ctx) :
    leafMatch ⟨[], none, route⟩ tp [] ctx = some (true, ctx) := by
  simp [leafMatch]

/-- A regex-free leaf with one non-splat wildcard accepts one value and
binds it. -/
theorem leafMatch_one (tp name v : String) (route : Nat) (ctx : Ctx)
    (hsplat : name ≠ "splat") :
    leafMatch ⟨[":" ++ name], none, route⟩ tp [v] ctx =
      some (true, setParam ctx (":" ++ name) v) := by
  have h2 : (":" ++ name) ≠ ":splat" := by
    intro he
    rw [show (":splat" : String) = ":" ++ "splat" from by decide] at he
    exact hsplat (append_left_cancel_str ":" name "splat" he)
  simp [leafMatch, h2, setParam]

theorem chainNode_pfx (p name : String) (route : Nat) (ss : List String) :
    (chainNode p name route ss).pfx = p := by
  cases ss <;> rfl

/-- `treeMatchF` reads its pattern argument only through `dropSlashes`. -/
theorem treeMatchF_congr_pat (f : Nat) (t : Tree) (tp pat1 pat2 : String)
    (wv : List String) (ctx : Ctx) (h : dropSlashes pat1 = dropSlashes pat2) :
    treeMatchF f t tp pat1 wv ctx = treeMatchF f t tp pat2 wv ctx := by
  cases f with
  | zero => rfl
  | succ f =>
    simp only [treeMatchF, h]

/-- Matching the created wildcard child on an exhausted pattern with one
candidate value binds the parameter and succeeds. -/
theorem wnode_match (f : Nat) (hf : 1 ≤ f) (tp name v : String) (route : Nat)
    (ctx : Ctx) (hsplat : name ≠ "splat") :
    treeMatchF f (Tree.node "" [] none [⟨[":" ++ name], none, route⟩])
        tp "" ([] ++ [v]) ctx =
      some (some route, setParam ctx (":" ++ name) v) := by
  cases f with
  | zero => omega
  | succ f =>
    simp only [treeMatchF, Tree.leaves, Tree.fixRouters, Tree.wildCard,
      List.nil_append]
    rw [if_pos (show dropSlashes "" = "" from rfl)]
    simp only [leafFirst]
    rw [leafMatch_one tp name v route ctx hsplat]

/-- Matching the end node of the spine on an exhausted pattern hits the
continuation leaf. -/
theorem endnode_leafphase (f : Nat) (hf : 1 ≤ f) (p tp name : String)
    (route : Nat) (ctx : Ctx) :
    treeMatchF f (chainNode p name route []) tp "" [] ctx =
      some (some route, ctx) := by
  cases f with
  | zero => omega
  | succ f =>
    simp only [chainNode, treeMatchF, Tree.leaves, Tree.fixRouters, Tree.wildCard]
    rw [if_pos (show dropSlashes "" = "" from rfl)]
    simp only [leafFirst]
    rw [leafMatch_static tp route ctx]

theorem joinSlash_len (s : String) (rest : List String) (h : rest ≠ []) :
    (joinSlash (s :: rest)).data.length =
      s.data.length + 1 + (joinSlash rest).data.length := by
  rw [joinSlash_cons_data s rest h]
  simp
  omega

end Asana


namespace Asana

/-- Matching the long URL form (a value supplied for the optional
parameter) against the spine: the matcher descends the literal chain,
exhausts it, and succeeds through the wildcard child, binding
`":" ++ name` to the value. -/
theorem chain_match_long : ∀ (ss : List String) (f : Nat) (p tp name v : String)
    (route : Nat) (ctx : Ctx),
    (∀ s ∈ ss, s.data ≠ [] ∧ s.data.contains '/' = false) →
    v.data ≠ [] → v.data.contains '/' = false → name ≠ "splat" →
    (joinSlash (ss ++ [v])).data.length + 1 ≤ f →
    treeMatchF f (chainNode p name route ss) tp
        ("/" ++ joinSlash (ss ++ [v])) [] ctx =
      some (some route, setParam ctx (":" ++ name) v) := by
  intro ss
  induction ss with
  | nil =>
    intro f p tp name v route ctx _ hv1 hv2 hsplat hf
    cases f with
    | zero => omega
    | succ f =>
      obtain ⟨c, t, hct⟩ : ∃ c t, v.data = c :: t := by
        cases hx : v.data with
        | nil => cases hv1 hx
        | cons c t => exact ⟨c, t, rfl⟩
      have hvall : ∀ ch ∈ v.data, ch ≠ '/' := contains_false_forall v.data '/' hv2
      have hlen : 1 ≤ (joinSlash ([] ++ [v])).data.length := by
        rw [List.nil_append, joinSlash_single, hct]
        simp
      have hdrop : dropSlashes ("/" ++ joinSlash ([] ++ [v])) = v := by
        rw [List.nil_append, joinSlash_single]
        exact dropSlashes_of_head v c (by rw [hct]; rfl)
          (hvall c (by rw [hct]; simp))
      have hseg : segOf v = v := by
        have h0 := (segOf_parts v [] hvall).1
        rwa [joinSlash_single] at h0
      have hrest : restOf v = "" := by
        have h0 := (segOf_parts v [] hvall).2
        rwa [joinSlash_single, if_pos rfl] at h0
      have hvne : v ≠ "" := by
        intro he
        rw [he] at hct
        cases hct
      simp only [chainNode, treeMatchF, Tree.leaves, Tree.fixRouters,
        Tree.wildCard, hdrop]
      rw [if_neg hvne]
      simp only [fixFirst]
      rw [if_neg (by decide)]
      dsimp only
      rw [hseg, hrest]
      rw [wnode_match f (by omega) _ name v route ctx hsplat]
  | cons s ss2 ih =>
    intro f p tp name v route ctx hss hv1 hv2 hsplat hf
    rw [List.cons_append] at hf ⊢
    cases f with
    | zero => omega
    | succ f =>
      have hs := hss s (by simp)
      have hsall : ∀ ch ∈ s.data, ch ≠ '/' := contains_false_forall s.data '/' hs.2
      obtain ⟨c, t, hct⟩ : ∃ c t, s.data = c :: t := by
        cases hx : s.data with
        | nil => cases hs.1 hx
        | cons c t => exact ⟨c, t, rfl⟩
      have hdrop : dropSlashes ("/" ++ joinSlash (s :: (ss2 ++ [v]))) =
          joinSlash (s :: (ss2 ++ [v])) := by
        exact dropSlashes_of_head _ c
          (by rw [joinSlash_head s _ hs.1, hct]; rfl)
          (hsall c (by rw [hct]; simp))
      have hne : joinSlash (s :: (ss2 ++ [v])) ≠ "" := by
        intro he
        have hd := congrArg String.data he
        rw [joinSlash_cons_data s _ (by simp), hct] at hd
        cases hd
      have hseg : segOf (joinSlash (s :: (ss2 ++ [v]))) = s :=
        (segOf_parts s _ hsall).1
      have hrest : restOf (joinSlash (s :: (ss2 ++ [v]))) =
          "/" ++ joinSlash (ss2 ++ [v]) := by
        have h0 := (segOf_parts s (ss2 ++ [v]) hsall).2
        rwa [if_neg (by simp)] at h0
      rw [joinSlash_len s _ (by simp)] at hf
      simp only [chainNode, treeMatchF, Tree.leaves, Tree.fixRouters,
        Tree.wildCard, hdrop]
      rw [if_neg hne]
      rw [hseg, hrest]
      simp only [fixFirst]
      rw [chainNode_pfx s name route ss2, if_pos rfl]
      rw [ih f s _ name v route ctx (fun u hu => hss u (by simp [hu]))
        hv1 hv2 hsplat (by omega)]

end Asana

namespace Asana

/-- Matching the short URL form (the optional segment omitted): the
matcher descends the literal chain and succeeds through the continuation
leaf, writing nothing. -/
theorem chain_match_short : ∀ (ss : List String) (f : Nat) (p tp name : String)
    (route : Nat) (ctx : Ctx),
    (∀ s ∈ ss, s.data ≠ [] ∧ s.data.contains '/' = false) →
    (joinSlash ss).data.length + 1 ≤ f →
    treeMatchF f (chainNode p name route ss) tp
        ("/" ++ joinSlash ss) [] ctx =
      some (some route, ctx) := by
  intro ss
  induction ss with
  | nil =>
    intro f p tp name route ctx _ hf
    rw [treeMatchF_congr_pat f _ tp ("/" ++ joinSlash []) "" [] ctx (by decide)]
    exact endnode_leafphase f (by omega) p tp name route ctx
  | cons s ss2 ih =>
    intro f p tp name route ctx hss hf
    cases f with
    | zero => omega
    | succ f =>
      have hs := hss s (by simp)
      have hsall : ∀ ch ∈ s.data, ch ≠ '/' := contains_false_forall s.data '/' hs.2
      obtain ⟨c, t, hct⟩ : ∃ c t, s.data = c :: t := by
        cases hx : s.data with
        | nil => cases hs.1 hx
        | cons c t => exact ⟨c, t, rfl⟩
      have hdrop : dropSlashes ("/" ++ joinSlash (s :: ss2)) =
          joinSlash (s :: ss2) := by
        exact dropSlashes_of_head _ c
          (by rw [joinSlash_head s _ hs.1, hct]; rfl)
          (hsall c (by rw [hct]; simp))
      have hne : joinSlash (s :: ss2) ≠ "" := by
        intro he
        have hd := congrArg String.data he
        cases hx : ss2 with
        | nil =>
          rw [hx, joinSlash_single, hct] at hd
          cases hd
        | cons s2 u =>
          rw [hx] at hd
          rw [joinSlash_cons_data s _ (by simp), hct] at hd
          cases hd
      have hseg : segOf (joinSlash (s :: ss2)) = s :=
        (segOf_parts s _ hsall).1
      simp only [chainNode, treeMatchF, Tree.leaves, Tree.fixRouters,
        Tree.wildCard, hdrop]
      rw [if_neg hne]
      rw [hseg]
      cases ss2 with
      | nil =>
        have hrest : restOf (joinSlash [s]) = "" := by
          have h0 := (segOf_parts s [] hsall).2
          rwa [if_pos rfl] at h0
        rw [hrest]
        simp only [fixFirst]
        rw [chainNode_pfx s name route [], if_pos rfl]
        rw [endnode_leafphase f (by
          rw [joinSlash_single] at hf
          have hl1 : 1 ≤ s.data.length := by rw [hct]; simp
          omega) s _ name route ctx]
      | cons s2 u =>
        have hrest : restOf (joinSlash (s :: s2 :: u)) =
            "/" ++ joinSlash (s2 :: u) := by
          have h0 := (segOf_parts s (s2 :: u) hsall).2
          rwa [if_neg (by simp)] at h0
        rw [hrest]
        simp only [fixFirst]
        rw [chainNode_pfx s name route (s2 :: u), if_pos rfl]
        rw [ih f s _ name route ctx (fun u2 hu => hss u2 (by simp [hu])) (by
          rw [joinSlash_len s (s2 :: u) (by simp)] at hf
          omega)]

end Asana

namespace Asana

set_option maxRecDepth 400000

end Asana

namespace Asana

theorem str_ne_empty_of_data (X : String) (h : X.data ≠ []) : X ≠ "" := by
  intro he
  rw [he] at h
  exact h rfl

theorem dropSlashes_head_ne (pat : String) :
    ∀ c, (dropSlashes pat).data.head? = some c → c ≠ '/' := by
  unfold dropSlashes
  show ∀ c, (pat.data.dropWhile _).head? = some c → c ≠ '/'
  induction pat.data with
  | nil => intro c h; cases h
  | cons x t ih =>
    intro c h
    rw [List.dropWhile_cons] at h
    by_cases hx : x = '/'
    · rw [if_pos (by simp [hx])] at h
      exact ih c h
    · rw [if_neg (by simp [hx])] at h
      injection h with h
      rw [← h]
      exact hx

theorem dropWhile_length_le (p : Char → Bool) (l : List Char) :
    (l.dropWhile p).length ≤ l.length := by
  induction l with
  | nil => simp
  | cons x t ih =>
    rw [List.dropWhile_cons]
    by_cases hx : p x = true
    · rw [if_pos hx]; simp only [List.length_cons]; omega
    · rw [if_neg hx]

theorem dropSlashes_len_le (Y : String) :
    (dropSlashes Y).data.length ≤ Y.data.length :=
  dropWhile_length_le _ _

theorem restOf_len_lt (X : String) (hne : X.data ≠ [])
    (hh : ∀ c, X.data.head? = some c → c ≠ '/') :
    (restOf X).data.length < X.data.length := by
  unfold restOf
  cases hx : X.data with
  | nil => cases hne hx
  | cons c t =>
    have hc : c ≠ '/' := hh c (by rw [hx]; rfl)
    have h1 : List.dropWhile (fun ch => decide (ch ≠ '/')) (c :: t) =
        List.dropWhile (fun ch => decide (ch ≠ '/')) t := by
      rw [List.dropWhile_cons, if_pos (by simp [hc])]
    simp only [h1]
    have h2 := dropWhile_length_le (fun ch => decide (ch ≠ '/')) t
    simp only [List.length_cons]
    omega

/-- The matcher's result does not depend on the fuel, as long as the fuel
exceeds the length of the (slash-stripped) pattern: each recursive call
consumes one nonempty segment. -/
theorem treeMatchF_fuel : ∀ (f1 f2 : Nat) (t : Tree) (tp pat : String)
    (wv : List String) (ctx : Ctx),
    (dropSlashes pat).data.length < f1 → (dropSlashes pat).data.length < f2 →
    treeMatchF f1 t tp pat wv ctx = treeMatchF f2 t tp pat wv ctx := by
  intro f1
  induction f1 with
  | zero => intro f2 t tp pat wv ctx h1 _; omega
  | succ f1 ih =>
    intro f2 t tp pat wv ctx h1 h2
    cases f2 with
    | zero => omega
    | succ f2 =>
      obtain ⟨p, fix, wc, lv⟩ := t
      simp only [treeMatchF, Tree.leaves, Tree.fixRouters, Tree.wildCard]
      by_cases hp : dropSlashes pat = ""
      · rw [if_pos hp, if_pos hp]
      · rw [if_neg hp, if_neg hp]
        have hXne : (dropSlashes pat).data ≠ [] := by
          intro hd
          exact hp (by rw [← strMk_data (dropSlashes pat), hd])
        have hlt : (dropSlashes (restOf (dropSlashes pat))).data.length <
            (dropSlashes pat).data.length :=
          Nat.lt_of_le_of_lt (dropSlashes_len_le _)
            (restOf_len_lt _ hXne (dropSlashes_head_ne pat))
        have hrecA : ∀ (s : Tree) (wvv : List String) (c : Ctx),
            treeMatchF f1 s
              (tpAfterFix fix (segOf (dropSlashes pat))
                (restOf (dropSlashes pat)) tp)
              (restOf (dropSlashes pat)) wvv c =
            treeMatchF f2 s
              (tpAfterFix fix (segOf (dropSlashes pat))
                (restOf (dropSlashes pat)) tp)
              (restOf (dropSlashes pat)) wvv c := by
          intro s wvv c
          exact ih f2 s _ _ wvv c (by omega) (by omega)
        simp only [hrecA]

end Asana

namespace Asana

/-- With no accumulated wildcards and empty regex context, the per-leaf
rewriting loop is the identity on leaves whose regex sources are
`Trim`-stable (`^body$` shaped). -/
theorem filterLeafFold_id : ∀ (lv : List LeafInfo),
    (∀ l ∈ lv, ∀ src, l.regexps = some src →
      "^" ++ strTrimCut ['^', '$'] src ++ "$" = src) →
    filterLeafFold [] lv "" = (lv, "") := by
  intro lv
  induction lv with
  | nil => intro _; rfl
  | cons l ls ih =>
    intro h
    obtain ⟨w, rx, ro⟩ := l
    simp only [filterLeafFold]
    rw [if_neg (by simp)]
    cases rx with
    | none =>
      rw [ih (fun u hu => h u (by simp [hu]))]
      simp
    | some src =>
      have hsrc := h ⟨w, some src, ro⟩ (by simp) src rfl
      dsimp only
      simp only [List.foldl_nil]
      rw [ih (fun u hu => h u (by simp [hu]))]
      simp [show ("^" : String) ++ "" = "^" from by decide, hsrc]

/-- With no accumulated wildcards and empty regex context,
`filterTreeWithPrefix` is the identity on well-formed subtrees. -/
theorem filterTreeWithPfxF_id : ∀ (f : Nat) (S : Tree),
    wfReTree f S = true → filterTreeWithPfxF f S [] "" = S := by
  intro f
  induction f with
  | zero =>
    intro S h
    obtain ⟨p, fix, wc, lv⟩ := S
    simp [wfReTree] at h
  | succ f ih =>
    intro S h
    obtain ⟨p, fix, wc, lv⟩ := S
    simp only [wfReTree, Bool.and_eq_true, List.all_eq_true] at h
    obtain ⟨⟨hlv, hfix⟩, hwc⟩ := h
    simp only [filterTreeWithPfxF]
    have hm : fix.map (fun v => filterTreeWithPfxF f v [] "") = fix := by
      have hpt : ∀ v ∈ fix, filterTreeWithPfxF f v [] "" = v :=
        fun v hv => ih v (hfix v hv)
      calc fix.map (fun v => filterTreeWithPfxF f v [] "")
          = fix.map id := List.map_congr_left hpt
        _ = fix := List.map_id fix
    have hlf : filterLeafFold [] lv "" = (lv, "") := by
      refine filterLeafFold_id lv ?_
      intro l hl src hsrc
      have := hlv l hl
      rw [hsrc] at this
      simpa using this
    rw [hm, hlf]
    cases wc with
    | none => rfl
    | some u =>
      replace hwc : wfReTree f u = true := hwc
      dsimp only
      rw [ih u hwc]

end Asana

namespace Asana

/-- Grafting a subtree under a literal chain into a node with no children
produces exactly the spine `graftSpine` around the filtered subtree. -/
theorem addTreeGo_chain : ∀ (qs : List String) (q p0 : String) (fuel : Nat)
    (S : Tree),
    (∀ s ∈ q :: qs, splitSegment s = (false, [], "")) →
    addTreeGo fuel (Tree.node p0 [] none []) (q :: qs) S [] "" =
      some (Tree.node p0
        [graftSpine (filterTreeWithPfxF fuel S [] "") q qs] none []) := by
  intro qs
  induction qs with
  | nil =>
    intro q p0 fuel S h
    have hq := h q (by simp)
    simp only [addTreeGo, hq]
    simp [graftSpine, Tree.setFix, Tree.fixRouters,
      show strTrimCut ['/'] ("" ++ "/" ++ "") = "" from by decide,
      show strTrimCut ['/'] "/" = "" from by decide]
  | cons q2 qs2 ih =>
    intro q p0 fuel S h
    have hq := h q (by simp)
    rw [addTreeGo]
    simp only [hq]
    simp [emptyNode, Tree.setFix, Tree.fixRouters]
    rw [ih q2 q fuel S (fun s hs => h s (by simp [hs]))]
    simp [graftSpine]

end Asana

namespace Asana

theorem setPfx_pfx (S : Tree) (x : String) : (S.setPfx x).pfx = x := by
  obtain ⟨p, fix, wc, lv⟩ := S
  rfl

theorem graftSpine_pfx (S1 : Tree) (q : String) (qs : List String) :
    (graftSpine S1 q qs).pfx = q := by
  cases qs with
  | nil => exact setPfx_pfx S1 q
  | cons q2 rest => rfl

/-- The matcher never reads the prefix of the node it is currently at
(only the prefixes of its literal children). -/
theorem treeMatchF_setPfx (f : Nat) (S : Tree) (x tp pat : String)
    (wv : List String) (ctx : Ctx) :
    treeMatchF f (S.setPfx x) tp pat wv ctx = treeMatchF f S tp pat wv ctx := by
  cases f with
  | zero => rfl
  | succ f =>
    obtain ⟨p, fix, wc, lv⟩ := S
    rfl

theorem pfx_ne_stripped (q e : String) (he : 0 < e.data.length)
    (hs : strHasSuffix q e = true) : q ≠ strDropRight q e.data.length := by
  intro heq
  have hl := congrArg (fun s => s.data.length) heq
  simp only [strDropRight, List.length_take] at hl
  simp only [strHasSuffix, ge_iff_le, Bool.decide_and, Bool.and_eq_true,
    decide_eq_true_eq] at hs
  omega

/-- If no listed extension strips the segment to a child prefix, the whole
extension retry is the identity. -/
theorem extLoop_noTarget (rec : Tree → Ctx → MRes) (exts : List String)
    (fix : List Tree) (seg : String)
    (h : ∀ e ∈ exts, ∀ s ∈ fix, strHasSuffix seg e = true →
      s.pfx ≠ strDropRight seg e.data.length) :
    ∀ cur, extLoop rec exts fix seg cur = some cur := by
  induction exts with
  | nil => intro cur; rfl
  | cons e es ih =>
    intro cur
    simp only [extLoop]
    by_cases hs : strHasSuffix seg e = true
    · rw [if_pos hs]
      rw [extFixLoop_skip rec fix _ _
        (fun s hsm => h e (by simp) s hsm hs)]
      exact ih (fun e2 he2 s hsm hs2 => h e2 (by simp [he2]) s hsm hs2) cur
    · rw [if_neg hs]
      exact ih (fun e2 he2 s hsm hs2 => h e2 (by simp [he2]) s hsm hs2) cur

theorem tpAfterFix_pos (child : Tree) (seg rest tp : String)
    (hpfx : child.pfx = seg) :
    tpAfterFix [child] seg rest tp =
      (if rest ≠ "" ∧ rest.data.head? = some '/' then
        String.mk (rest.data.drop 1) else rest) := by
  simp [tpAfterFix, hpfx]

end Asana

namespace Asana

/-- A spine node (single literal child, no wildcard, no leaves) is
transparent: its match result is exactly the recursive result on the
child, whatever that is. -/
theorem spine_step (f : Nat) (p0 seg tp pat : String) (child : Tree)
    (wv : List String) (ctx : Ctx)
    (hpfx : child.pfx = seg)
    (hpat : dropSlashes pat ≠ "")
    (hseg : segOf (dropSlashes pat) = seg)
    (hstrip : ∀ e ∈ allowSuffixExt, strHasSuffix seg e = true →
      seg ≠ strDropRight seg e.data.length) :
    treeMatchF (f + 1) (Tree.node p0 [child] none []) tp pat wv ctx =
      treeMatchF f child
        (tpAfterFix [child] seg (restOf (dropSlashes pat)) tp)
        (restOf (dropSlashes pat)) wv ctx := by
  simp only [treeMatchF, Tree.leaves, Tree.fixRouters, Tree.wildCard]
  rw [if_neg hpat, hseg]
  simp only [fixFirst]
  rw [hpfx, if_pos rfl]
  cases hx : treeMatchF f child
      (tpAfterFix [child] seg (restOf (dropSlashes pat)) tp)
      (restOf (dropSlashes pat)) wv ctx with
  | none => rfl
  | some rd =>
    obtain ⟨ro, c⟩ := rd
    cases ro with
    | some r => rfl
    | none =>
      dsimp only
      rw [if_pos (show ([child] : List Tree).isEmpty = false from rfl)]
      rw [extLoop_noTarget _ allowSuffixExt [child] seg (fun e he s hsm hs2 => by
        rw [List.mem_singleton.mp hsm, hpfx]
        exact hstrip e he hs2) (none, c)]
      rfl

end Asana

namespace Asana

/-- Decomposition of `"/" ++ (joinSlash (s :: rest) ++ p)` where `p` is a
slash-led path: stripping, first segment and remainder. -/
theorem segOf_parts_p (s : String) (rest : List String) (p : String)
    (hne : s.data ≠ []) (hs : ∀ c ∈ s.data, c ≠ '/')
    (hp : p.data.head? = some '/') :
    dropSlashes ("/" ++ (joinSlash (s :: rest) ++ p)) =
      joinSlash (s :: rest) ++ p ∧
    joinSlash (s :: rest) ++ p ≠ "" ∧
    segOf (joinSlash (s :: rest) ++ p) = s ∧
    restOf (joinSlash (s :: rest) ++ p) =
      (if rest = [] then p else "/" ++ (joinSlash rest ++ p)) := by
  obtain ⟨pt, hpd⟩ : ∃ pt, p.data = '/' :: pt := by
    cases hx : p.data with
    | nil => rw [hx] at hp; cases hp
    | cons a b =>
      rw [hx] at hp
      injection hp with hp2
      rw [← hp2]
      exact ⟨b, rfl⟩
  obtain ⟨c, t, hct⟩ : ∃ c t, s.data = c :: t := by
    cases hx : s.data with
    | nil => cases hne hx
    | cons c t => exact ⟨c, t, rfl⟩
  cases rest with
  | nil =>
    rw [joinSlash_single]
    have hd : (s ++ p).data = s.data ++ '/' :: pt := by
      rw [String.data_append, hpd]
    refine ⟨?_, ?_, ?_, ?_⟩
    · refine dropSlashes_of_head _ c ?_ (hs c (by rw [hct]; simp))
      rw [hd, hct]
      rfl
    · intro he
      have h2 := congrArg String.data he
      rw [hd, hct] at h2
      cases h2
    · unfold segOf
      rw [hd, takeWhile_append_stop _ '/' pt (by decide) s.data
        (fun ch hch => by simp [hs ch hch])]
    · rw [if_pos rfl]
      unfold restOf
      rw [hd, dropWhile_append_stop _ '/' pt (by decide) s.data
        (fun ch hch => by simp [hs ch hch]), ← hpd]
  | cons r2 rs =>
    have hd : (joinSlash (s :: r2 :: rs) ++ p).data =
        s.data ++ '/' :: ((joinSlash (r2 :: rs)).data ++ p.data) := by
      rw [String.data_append, joinSlash_cons_data s _ (by simp),
        List.append_assoc]
      rfl
    refine ⟨?_, ?_, ?_, ?_⟩
    · refine dropSlashes_of_head _ c ?_ (hs c (by rw [hct]; simp))
      rw [hd, hct]
      rfl
    · intro he
      have h2 := congrArg String.data he
      rw [hd, hct] at h2
      cases h2
    · unfold segOf
      rw [hd, takeWhile_append_stop _ '/' _ (by decide) s.data
        (fun ch hch => by simp [hs ch hch])]
    · rw [if_neg (by simp)]
      unfold restOf
      rw [hd, dropWhile_append_stop _ '/' _ (by decide) s.data
        (fun ch hch => by simp [hs ch hch])]
      have h2 := strMk_data ("/" ++ (joinSlash (r2 :: rs) ++ p))
      rw [show ("/" ++ (joinSlash (r2 :: rs) ++ p)).data =
        '/' :: ((joinSlash (r2 :: rs)).data ++ p.data) from by
          rw [String.data_append, String.data_append]
          rfl] at h2
      exact h2

end Asana

namespace Asana

theorem strip_ne_all (q : String) : ∀ e ∈ allowSuffixExt,
    strHasSuffix q e = true → q ≠ strDropRight q e.data.length := by
  intro e he hs2
  refine pfx_ne_stripped q e ?_ hs2
  simp only [allowSuffixExt, List.mem_cons, List.mem_singleton,
    List.not_mem_nil, or_false] at he
  rcases he with he | he | he
  · rw [he]; decide
  · rw [he]; decide
  · rw [he]; decide

/-- Descending the whole graft spine: matching `"/" ++ chain ++ p` against
the spine equals matching `p` against the grafted subtree itself. -/
theorem graft_descent : ∀ (qs : List String) (q : String) (f : Nat)
    (p0 : String) (S1 : Tree) (tp p : String) (wv : List String) (ctx : Ctx),
    (∀ s ∈ q :: qs, s.data ≠ [] ∧ s.data.contains '/' = false) →
    p.data.head? = some '/' →
    (joinSlash (q :: qs) ++ p).data.length < f →
    treeMatchF f (Tree.node p0 [graftSpine S1 q qs] none []) tp
        ("/" ++ (joinSlash (q :: qs) ++ p)) wv ctx =
      treeMatchF ((dropSlashes p).data.length + 1) S1
        (String.mk (p.data.drop 1)) p wv ctx := by
  intro qs
  induction qs with
  | nil =>
    intro q f p0 S1 tp p wv ctx hq hp hf
    cases f with
    | zero => omega
    | succ f =>
      have hs := hq q (by simp)
      have hall : ∀ ch ∈ q.data, ch ≠ '/' := contains_false_forall _ _ hs.2
      obtain ⟨hdrop, hne0, hseg, hrest⟩ := segOf_parts_p q [] p hs.1 hall hp
      rw [if_pos rfl] at hrest
      have hpne : p ≠ "" := by
        intro he
        rw [he] at hp
        cases hp
      rw [spine_step f p0 q tp ("/" ++ (joinSlash [q] ++ p))
        (graftSpine S1 q []) wv ctx (graftSpine_pfx S1 q [])
        (by rw [hdrop]; exact hne0) (by rw [hdrop]; exact hseg)
        (strip_ne_all q)]
      rw [hdrop, hrest]
      rw [tpAfterFix_pos (graftSpine S1 q []) q p tp (graftSpine_pfx S1 q [])]
      rw [if_pos ⟨hpne, hp⟩]
      show treeMatchF f (S1.setPfx q) (String.mk (p.data.drop 1)) p wv ctx = _
      rw [treeMatchF_setPfx]
      have hlen : (joinSlash [q] ++ p).data.length =
          q.data.length + p.data.length := by
        rw [String.data_append, joinSlash_single, List.length_append]
      have hq1 : 1 ≤ q.data.length := by
        cases hx : q.data with
        | nil => cases hs.1 hx
        | cons a b => simp
      have hds := dropSlashes_len_le p
      exact treeMatchF_fuel f _ S1 _ p wv ctx (by omega) (by omega)
  | cons q2 qs2 ih =>
    intro q f p0 S1 tp p wv ctx hq hp hf
    cases f with
    | zero => omega
    | succ f =>
      have hs := hq q (by simp)
      have hall : ∀ ch ∈ q.data, ch ≠ '/' := contains_false_forall _ _ hs.2
      obtain ⟨hdrop, hne0, hseg, hrest⟩ :=
        segOf_parts_p q (q2 :: qs2) p hs.1 hall hp
      rw [if_neg (by simp)] at hrest
      rw [spine_step f p0 q tp ("/" ++ (joinSlash (q :: q2 :: qs2) ++ p))
        (graftSpine S1 q (q2 :: qs2)) wv ctx (graftSpine_pfx S1 q (q2 :: qs2))
        (by rw [hdrop]; exact hne0) (by rw [hdrop]; exact hseg)
        (strip_ne_all q)]
      rw [hdrop, hrest]
      show treeMatchF f (Tree.node q [graftSpine S1 q2 qs2] none []) _ _ wv ctx = _
      refine ih q2 f q S1 _ p wv ctx (fun s hs2 => hq s (by simp [hs2])) hp ?_
      have hlen : (joinSlash (q :: q2 :: qs2) ++ p).data.length =
          q.data.length + 1 + (joinSlash (q2 :: qs2) ++ p).data.length := by
        rw [String.data_append, joinSlash_cons_data q _ (by simp),
          String.data_append]
        simp only [List.length_append, List.length_cons]
        omega
      omega

end Asana

namespace Asana

set_option maxRecDepth 400000

/-- C7 counterexample.  Graft the subtree registered with `/p -> 2` under
prefix `/q` into a tree that already has `/q/p -> 1`: matching `/q/p`
against the merged tree returns endpoint 1 (the pre-existing literal chain
is tried first), while matching `/p` against the subtree returns 2 - the
invariant fails when the target tree already has routes under the
prefix. -/
theorem c7_counterexample :
    (AddTree 50 (AddRouter NewTree "/q/p" 1) "/q"
        (AddRouter NewTree "/p" 2)).map (fun t => Match t "/q/p" []) =
      some (some (some 1, [])) ∧
    Match (AddRouter NewTree "/p" 2) "/p" [] = some (some 2, []) ∧
    (1 : Nat) ≠ 2 := by
  refine ⟨by decide, by decide, by decide⟩

/-- C7 (amended): grafting a fully built, well-formed subtree `S` under a
literal prefix chain into an EMPTY tree preserves matching: for every path
`p` starting with `/`, matching `prefix ++ p` against the merged tree
returns exactly what matching `p` against `S` returns - the same endpoint
and the same context (hence the same parameter bindings).  If the target
tree already has routes under the prefix, those can shadow the graft (see
the counterexample). -/
theorem c7_graft (fuel : Nat) (qs : List String) (S : Tree) (p : String)
    (ctx : Ctx)
    (hqs : ∀ s ∈ qs, goodSeg s ∧ splitSegment s = (false, [], ""))
    (hqne : qs ≠ [])
    (hwf : wfReTree fuel S = true)
    (hp : p.data.head? = some '/') :
    ∃ T2, AddTree fuel NewTree ("/" ++ joinSlash qs) S = some T2 ∧
      Match T2 ("/" ++ (joinSlash qs ++ p)) ctx = Match S p ctx := by
  obtain ⟨q, qs2, rfl⟩ : ∃ a l, qs = a :: l := by
    cases hx : qs with
    | nil => cases hqne hx
    | cons a l => exact ⟨a, l, rfl⟩
  have hpd : p.data ≠ [] := by
    intro he
    rw [he] at hp
    cases hp
  unfold AddTree
  rw [splitPath_join _ (fun s hs => (hqs s hs).1) (by simp)]
  rw [show NewTree = Tree.node "" [] none [] from rfl]
  rw [addTreeGo_chain qs2 q "" fuel S (fun s hs => (hqs s hs).2)]
  rw [filterTreeWithPfxF_id fuel S hwf]
  refine ⟨_, rfl, ?_⟩
  unfold Match
  rw [if_neg (by
    rw [show ("/" ++ (joinSlash (q :: qs2) ++ p)).data =
      '/' :: (joinSlash (q :: qs2) ++ p).data from by
        rw [String.data_append]; rfl]
    simp)]
  rw [if_neg (by simp [hp, hpd])]
  have hplen : ("/" ++ (joinSlash (q :: qs2) ++ p)).data.length =
      (joinSlash (q :: qs2) ++ p).data.length + 1 := by
    rw [show ("/" ++ (joinSlash (q :: qs2) ++ p)).data =
      '/' :: (joinSlash (q :: qs2) ++ p).data from by
        rw [String.data_append]; rfl]
    rfl
  rw [graft_descent qs2 q _ "" S _ p [] ctx
    (fun s hs => ⟨((hqs s hs).1).1, ((hqs s hs).1).2.1⟩) hp (by omega)]
  have hds := dropSlashes_len_le p
  exact treeMatchF_fuel _ _ S _ p [] ctx (by omega) (by omega)

theorem c7_graft_witness :
    (∀ s ∈ ["q1", "q2"], goodSeg s ∧ splitSegment s = (false, [], "")) ∧
    wfReTree 50 (AddRouter NewTree "/x" 4) = true ∧
    (∃ T2, AddTree 50 NewTree ("/" ++ joinSlash ["q1", "q2"])
        (AddRouter NewTree "/x" 4) = some T2 ∧
      Match T2 ("/" ++ (joinSlash ["q1", "q2"] ++ "/x")) [("a", "b")] =
        Match (AddRouter NewTree "/x" 4) "/x" [("a", "b")]) := by
  have hqs : ∀ s ∈ ["q1", "q2"], goodSeg s ∧ splitSegment s = (false, [], "") := by
    intro s hs
    simp only [List.mem_cons, List.not_mem_nil, or_false] at hs
    rcases hs with h | h <;> rw [h]
    · exact ⟨⟨by decide, by decide, by decide⟩, by decide⟩
    · exact ⟨⟨by decide, by decide, by decide⟩, by decide⟩
  exact ⟨hqs, by decide,
    c7_graft 50 ["q1", "q2"] (AddRouter NewTree "/x" 4) "/x" [("a", "b")]
      hqs (by simp) (by decide) (by decide)⟩

end Asana

namespace Asana

end Asana

namespace Asana

end Asana


namespace Asana

end Asana

namespace Asana

end Asana


namespace Asana

end Asana

namespace Asana

end Asana

namespace Asana

end Asana

namespace Asana

end Asana

namespace Asana

end Asana
